import Mathlib

/-!
Verification of the phase-synchronized concurrent batch executor
(`phaseSyncedSettle`, file `src/js/phaseSyncedSettle.js`).

The executor runs a list of asynchronous jobs, each divided into phases by
calls to `PhaseSyncer.phase()`.  A coordinator keeps three sets
(`jobs`, `queuedJobs`, `phasePendingJobs`), releases at most `concurrency`
jobs per phase via per-job `'ready'` signals, admits one queued job whenever
a running job reports `'stepDone'`, and starts the next phase when
`phasePendingJobs` becomes empty.  Each job's decorated promise emits a
single `'jobDone'` on settlement, and the module resolves with the
order-preserving settle-all of every job promise.

The embedding below mirrors the source:
  * `CoordState`, `startNewPhase`, `startQueuedJob`, `onStepDone`,
    `onJobDone` are direct translations of the coordinator's mutable sets
    and event handlers (JavaScript `Set` iteration order is insertion
    order, so sets are modelled as duplicate-free lists; `Set.delete` is
    `List.erase`).
  * `PhaseSyncer.phase` is a direct translation of the phase-boundary
    method, recording its observable actions in order.
  * A small-step operational semantics (`Step`, `Reach`) closes the system
    over protocol-following jobs scheduled by Node's single-threaded event
    loop: `'ready'` resolution and promise settlement are microtasks, hence
    separate nondeterministically-scheduled transitions, while event
    handlers run synchronously inside the emitting transition.
  * Job identities are modelled by construction index (uuidv1 values are
    pairwise distinct and are only used as opaque map keys).
-/

namespace PSS

/-- Settled outcome of a job's underlying promise: fulfilled with a value or
rejected with a reason (values/reasons abstracted as `Nat`). -/
inductive Outcome where
  | fulfilled (v : Nat)
  | rejected (r : Nat)
deriving DecidableEq, Repr

/-- Result object produced by `p-settle` for one promise. -/
structure SettleResult where
  isFulfilled : Bool
  isRejected : Bool
  payload : Nat
deriving DecidableEq, Repr

/-- `p-settle`'s reflection of one settled promise. -/
def settleWrap : Outcome → SettleResult
  | Outcome.fulfilled v => ⟨true, false, v⟩
  | Outcome.rejected r => ⟨false, true, r⟩

/-- Status of one job as scheduled by the event loop:
`waiting` = suspended at a phase boundary with the `'ready'` listener armed;
`released` = `'ready'` received, resumption microtask pending;
`working` = executing phase work;
`finishing` = job function settled, `p-finally` callback still pending;
`done` = `'jobDone'` emitted and processed. -/
inductive JStat where
  | waiting
  | released
  | working
  | finishing
  | done
deriving DecidableEq, Repr

/-- Observable actions of a run, in trace order. -/
inductive Act where
  | invoke (j : Nat)
  | newPhase (snapshot : List Nat)
  | ready (j : Nat)
  | beginWork (j : Nat) (phase : Nat)
  | stepDone (j : Nat) (cntr : Nat)
  | settle (j : Nat) (o : Outcome)
  | jobDone (j : Nat)
deriving DecidableEq, Repr

/-- The coordinator's three working sets (JavaScript `Set`s in insertion
order, modelled as duplicate-free lists). -/
structure CoordState where
  jobs : List Nat
  queuedJobs : List Nat
  phasePendingJobs : List Nat
deriving DecidableEq, Repr

/-- `startNewPhase`: snapshot `jobs`, signal `'ready'` to the first
`concurrency` of them in insertion order, queue the remainder, and set
`phasePendingJobs` to the full snapshot.  The returned action list records
the phase start and the emitted `'ready'` signals in emission order. -/
def startNewPhase (c : Nat) (s : CoordState) : CoordState × List Act :=
  let jobList := s.jobs
  (⟨s.jobs, jobList.drop c, jobList⟩,
    Act.newPhase jobList :: (jobList.take c).map Act.ready)

/-- `startQueuedJob`: if any job is queued, signal `'ready'` to the first
queued job (insertion order) and remove it from the queue. -/
def startQueuedJob (s : CoordState) : CoordState × List Act :=
  match s.queuedJobs with
  | [] => (s, [])
  | id :: rest => (⟨s.jobs, rest, s.phasePendingJobs⟩, [Act.ready id])

/-- Common tail of both event handlers: if `phasePendingJobs` became empty
start a new phase, otherwise release one queued job. -/
def dispatch (c : Nat) (s : CoordState) : CoordState × List Act :=
  if s.phasePendingJobs.isEmpty then startNewPhase c s else startQueuedJob s

/-- The `'stepDone'` listener: delete the reporting job from
`phasePendingJobs`, then dispatch.  (The reported step number is only
logged by the source and does not influence the handler.) -/
def onStepDone (c : Nat) (s : CoordState) (id : Nat) : CoordState × List Act :=
  dispatch c ⟨s.jobs, s.queuedJobs, s.phasePendingJobs.erase id⟩

/-- The `'jobDone'` listener: delete the terminated job from all three
sets, then dispatch. -/
def onJobDone (c : Nat) (s : CoordState) (id : Nat) : CoordState × List Act :=
  dispatch c ⟨s.jobs.erase id, s.queuedJobs.erase id, s.phasePendingJobs.erase id⟩

/-! ## The phase-boundary operation (`PhaseSyncer.phase`) -/

/-- Observable actions of one `phase()` call, in program order. -/
inductive PhaseAct where
  | arm
  | emitStepDone (id : Nat) (cntr : Nat)
  | suspend
deriving DecidableEq, Repr

/-- The per-job handle: unique identity and phase counter. -/
structure PhaseSyncer where
  id : Nat
  phaseCntr : Nat
deriving DecidableEq, Repr

/-- `PhaseSyncer.phase()`: arm the `'ready'` listener first, then (iff the
phase counter is positive) emit `'stepDone'` carrying the identity and the
current counter, increment the counter, and suspend on the armed promise. -/
def PhaseSyncer.phase (ps : PhaseSyncer) : PhaseSyncer × List PhaseAct :=
  (⟨ps.id, ps.phaseCntr + 1⟩,
    PhaseAct.arm ::
      ((if 0 < ps.phaseCntr then [PhaseAct.emitStepDone ps.id ps.phaseCntr] else [])
        ++ [PhaseAct.suspend]))

/-! ## Argument-array mutation (`args.unshift(this)`) -/

/-- A value stored in a caller-supplied argument array. -/
inductive Val where
  | handle (id : Nat)
  | arg (v : Nat)
deriving DecidableEq, Repr

/-- `args.unshift(this)`: mutate the array at reference `r` in the heap by
prepending the handle with identity `idv`. -/
def unshiftHandle (st : Nat → List Val) (r : Nat) (idv : Nat) : Nat → List Val :=
  fun x => if x = r then Val.handle idv :: st r else st x

/-- Run the `PhaseSyncer` constructors left to right over the descriptor
list (each descriptor contributes the reference of its caller-owned
argument array); the job at position `i` receives identity `i0 + i`. -/
def constructAllStore (st : Nat → List Val) : List Nat → Nat → (Nat → List Val)
  | [], _ => st
  | r :: rest, i0 => constructAllStore (unshiftHandle st r i0) rest (i0 + 1)

/-- The argument lists actually passed to the job functions, in
construction order: each function is invoked on the mutated array. -/
def invocationArgs (st : Nat → List Val) : List Nat → Nat → List (List Val)
  | [], _ => []
  | r :: rest, i0 =>
      (Val.handle i0 :: st r) :: invocationArgs (unshiftHandle st r i0) rest (i0 + 1)

/-! ## Result aggregation (`pSettle` over `jobMap` values) -/

/-- The syncers in construction order (`jobList.map(... new PhaseSyncer ...)`),
identified by construction index. -/
def buildSyncers (jobCount : Nat) : List PhaseSyncer :=
  (List.range jobCount).map (fun i => ⟨i, 0⟩)

/-- `jobMap` as the association list of `[phaseSyncer.id, phaseSyncer]`
pairs; identities are pairwise distinct, so `new Map(pairs)` keeps exactly
these entries in insertion order. -/
def jobMapPairs (jobCount : Nat) : List (Nat × PhaseSyncer) :=
  (buildSyncers jobCount).map (fun ps => (ps.id, ps))

/-- `jobs = new Set(jobMap.keys())`. -/
def jobsKeys (jobCount : Nat) : List Nat :=
  (jobMapPairs jobCount).map Prod.fst

/-- The module's return value: `pSettle` applied to the job promises taken
from `jobMap.values()`, i.e. the settle-all reflection of every job's
outcome in `jobMap` insertion order. -/
def aggregateResult (jobCount : Nat) (oc : Nat → Outcome) : List SettleResult :=
  ((jobMapPairs jobCount).map Prod.snd).map (fun ps => settleWrap (oc ps.id))

/-! ## Closed-system operational semantics

A run is parametrized by the job count `n`, the concurrency cap `c`, the
number of phase-boundary calls `np j` each job function makes, and the
outcome `oc j` its promise eventually settles with.  Protocol-following job
functions call `phase()` first and between any two pieces of phase work
(this is the shape the module is written for); a job with `np j = 0` never
calls `phase()` and its whole body is ungated phase-0 work. -/

/-- Global state: the coordinator's sets plus each job's phase counter and
scheduling status. -/
structure GState where
  coord : CoordState
  cnt : Nat → Nat
  jstat : Nat → JStat

/-- Pointwise update of a job-status map. -/
def setStat (f : Nat → JStat) (j : Nat) (v : JStat) : Nat → JStat :=
  fun x => if x = j then v else f x

/-- Pointwise update of a phase-counter map. -/
def setCnt (f : Nat → Nat) (j : Nat) (v : Nat) : Nat → Nat :=
  fun x => if x = j then v else f x

/-- Deliver one `'ready'` signal: it resolves the armed `pEvent` promise of
a waiting job; a job that is not waiting has no armed listener, so the
signal is lost. -/
def releaseOne (f : Nat → JStat) (j : Nat) : Nat → JStat :=
  fun x => if x = j then (if f j = JStat.waiting then JStat.released else f j) else f x

/-- Deliver a list of `'ready'` signals in order. -/
def releaseAll (f : Nat → JStat) : List Nat → (Nat → JStat)
  | [] => f
  | j :: rest => releaseAll (releaseOne f j) rest

/-- The targets of the `'ready'` signals in an action list, in order. -/
def emittedReadies : List Act → List Nat
  | [] => []
  | Act.ready j :: rest => j :: emittedReadies rest
  | _ :: rest => emittedReadies rest

/-- Job statuses right after all constructors ran: a job that calls
`phase()` runs synchronously into its first call and suspends (no
`'stepDone'`, counter `0 → 1`); a job that never calls it is already
running its body.  Indices `≥ n` are unused. -/
def initJstat (n : Nat) (np : Nat → Nat) : Nat → JStat :=
  fun j => if j < n then (if np j = 0 then JStat.working else JStat.waiting) else JStat.done

/-- Phase counters right after all constructors ran. -/
def initCnt (n : Nat) (np : Nat → Nat) : Nat → Nat :=
  fun j => if j < n ∧ np j ≠ 0 then 1 else 0

/-- Constructor-time actions of job `j`: its function is invoked
synchronously; with no boundary call its phase-0 work starts at once. -/
def invokeActs (np : Nat → Nat) (j : Nat) : List Act :=
  Act.invoke j :: (if np j = 0 then [Act.beginWork j 0] else [])

/-- The synchronous module body: construct every syncer (invoking every
job function) in list order, then run the initial `startNewPhase()`. -/
def initState (n c : Nat) (np : Nat → Nat) : GState :=
  let pr := startNewPhase c (CoordState.mk (List.range n) [] [])
  ⟨pr.1, initCnt n np, releaseAll (initJstat n np) (emittedReadies pr.2)⟩

/-- Trace of the synchronous module body. -/
def initTrace (n c : Nat) (np : Nat → Nat) : List Act :=
  ((List.range n).map (invokeActs np)).flatten
    ++ (startNewPhase c (CoordState.mk (List.range n) [] [])).2

/-- One scheduler step of the event loop.  `'ready'` resolution and promise
settlement schedule microtasks, so resuming, settling and the `p-finally`
callback are separate transitions; `ctrlEmitter.emit` runs the registered
handler synchronously inside the emitting transition, including the
`'ready'` signals the handler sends out. -/
inductive Step (c : Nat) (np : Nat → Nat) (oc : Nat → Outcome) :
    GState → List Act → GState → Prop where
  /-- A released job's resumption microtask runs: its phase-`cnt - 1` work
  begins. -/
  | resume (σ : GState) (j : Nat) (h : σ.jstat j = JStat.released) :
      Step c np oc σ [Act.beginWork j (σ.cnt j - 1)]
        ⟨σ.coord, σ.cnt, setStat σ.jstat j JStat.working⟩
  /-- A working job reaches its next phase boundary and calls `phase()`
  with a positive counter: arm, emit `'stepDone'` (the handler runs
  synchronously), increment, suspend. -/
  | boundary (σ : GState) (j : Nat) (h : σ.jstat j = JStat.working)
      (h0 : 0 < σ.cnt j) (hn : σ.cnt j < np j) :
      Step c np oc σ (Act.stepDone j (σ.cnt j) :: (onStepDone c σ.coord j).2)
        ⟨(onStepDone c σ.coord j).1, setCnt σ.cnt j (σ.cnt j + 1),
          releaseAll (setStat σ.jstat j JStat.waiting)
            (emittedReadies (onStepDone c σ.coord j).2)⟩
  /-- A working job calls `phase()` with counter `0`: arm, no emission,
  increment, suspend.  (Only the constructor-time first call has counter
  `0`; inside a run this case is unreachable.) -/
  | boundaryFirst (σ : GState) (j : Nat) (h : σ.jstat j = JStat.working)
      (h0 : σ.cnt j = 0) (hn : σ.cnt j < np j) :
      Step c np oc σ []
        ⟨σ.coord, setCnt σ.cnt j (σ.cnt j + 1), setStat σ.jstat j JStat.waiting⟩
  /-- A working job with no boundaries left finishes its body: its promise
  settles with its own outcome and the `p-finally` callback is scheduled. -/
  | settle (σ : GState) (j : Nat) (h : σ.jstat j = JStat.working)
      (hn : σ.cnt j = np j) :
      Step c np oc σ [Act.settle j (oc j)]
        ⟨σ.coord, σ.cnt, setStat σ.jstat j JStat.finishing⟩
  /-- The `p-finally` callback of a settled job runs: it emits `'jobDone'`
  (the handler runs synchronously). -/
  | finalize (σ : GState) (j : Nat) (h : σ.jstat j = JStat.finishing) :
      Step c np oc σ (Act.jobDone j :: (onJobDone c σ.coord j).2)
        ⟨(onJobDone c σ.coord j).1, σ.cnt,
          releaseAll (setStat σ.jstat j JStat.done)
            (emittedReadies (onJobDone c σ.coord j).2)⟩

/-- Reachable configurations of a run: the state after the synchronous
module body, extended by any schedule of steps; the trace accumulates every
observable action in order. -/
inductive Reach (n c : Nat) (np : Nat → Nat) (oc : Nat → Outcome) :
    GState → List Act → Prop where
  | init : Reach n c np oc (initState n c np) (initTrace n c np)
  | step {σ : GState} {t : List Act} {a : List Act} {σ₂ : GState} :
      Reach n c np oc σ t → Step c np oc σ a σ₂ → Reach n c np oc σ₂ (t ++ a)

/-! ## Trace observables -/

/-- Is this action a `'ready'` signal to job `j`? -/
def isReadyFor (j : Nat) : Act → Bool
  | Act.ready i => i = j
  | _ => false

/-- Is this action a `'stepDone'` notification from job `j`? -/
def isStepDoneOf (j : Nat) : Act → Bool
  | Act.stepDone i _ => i = j
  | _ => false

/-- Is this action a `'jobDone'` notification from job `j`? -/
def isJobDoneOf (j : Nat) : Act → Bool
  | Act.jobDone i => i = j
  | _ => false

/-- Is this action the settlement of job `j`'s promise? -/
def isSettleOf (j : Nat) : Act → Bool
  | Act.settle i _ => i = j
  | _ => false

/-- Is this action a phase start? -/
def isNewPhaseAct : Act → Bool
  | Act.newPhase _ => true
  | _ => false

/-- Number of `'ready'` signals to job `j` in a trace. -/
def countReady (j : Nat) (t : List Act) : Nat := t.countP (isReadyFor j)

/-- Number of `'stepDone'` notifications from job `j` in a trace. -/
def countStepDone (j : Nat) (t : List Act) : Nat := t.countP (isStepDoneOf j)

/-- Number of `'jobDone'` notifications from job `j` in a trace. -/
def countJobDone (j : Nat) (t : List Act) : Nat := t.countP (isJobDoneOf j)

/-- Number of settlements of job `j` in a trace. -/
def countSettle (j : Nat) (t : List Act) : Nat := t.countP (isSettleOf j)

/-- Number of phase starts in a trace. -/
def countNewPhase (t : List Act) : Nat := t.countP isNewPhaseAct

/-- After the most recent `'ready'` signal to job `j` (if any) the job has
reported back, with `'stepDone'` or `'jobDone'`. -/
def ReportedAfterLastReady (j : Nat) (t : List Act) : Prop :=
  ∀ u v, t = u ++ Act.ready j :: v → Act.ready j ∉ v →
    ((∃ k, Act.stepDone j k ∈ v) ∨ Act.jobDone j ∈ v)

/-- Between two consecutive `'ready'` signals to the same job there is an
intervening `'stepDone'` or `'jobDone'` from that job. -/
def NoDoubleRelease (t : List Act) : Prop :=
  ∀ j t1 t2 t3, t = t1 ++ Act.ready j :: t2 ++ Act.ready j :: t3 →
    Act.ready j ∉ t2 →
    ((∃ k, Act.stepDone j k ∈ t2) ∨ Act.jobDone j ∈ t2)

/-- Between two consecutive phase starts, every job of the earlier phase's
snapshot has reported `'stepDone'` or `'jobDone'`. -/
def BarrierProp (t : List Act) : Prop :=
  ∀ u s v s₂ w, t = u ++ Act.newPhase s :: v ++ Act.newPhase s₂ :: w →
    (∀ x, Act.newPhase x ∉ v) →
    ∀ x ∈ s, ((∃ k, Act.stepDone x k ∈ v) ∨ Act.jobDone x ∈ v)

/-- Phase-`p` work (`p ≥ 1`) begins only after at least `p + 1` phase
starts, i.e. only once `startNewPhase` has opened phase `p`. -/
def PhaseGate (t : List Act) : Prop :=
  ∀ j p t1 t2, t = t1 ++ Act.beginWork j p :: t2 → 1 ≤ p →
    p + 1 ≤ countNewPhase t1

/-- A job that makes at least one boundary call begins no phase work before
its first `'ready'` signal. -/
def ReadyGate (np : Nat → Nat) (t : List Act) : Prop :=
  ∀ j p t1 t2, t = t1 ++ Act.beginWork j p :: t2 → 1 ≤ np j →
    Act.ready j ∈ t1

/-- Every member of the most recent phase snapshot is still phase-pending
or has reported since that phase started. -/
def LastSnapshot (σ : GState) (t : List Act) : Prop :=
  ∃ u s v, t = u ++ Act.newPhase s :: v ∧ (∀ x, Act.newPhase x ∉ v) ∧
    ∀ x ∈ s, x ∈ σ.coord.phasePendingJobs ∨
      (∃ k, Act.stepDone x k ∈ v) ∨ Act.jobDone x ∈ v

/-! ## List and trace toolkit -/

theorem snoc_eq_append_cons {α : Type} {t t1 t2 : List α} {a b : α}
    (h : t ++ [a] = t1 ++ b :: t2) :
    (t = t1 ∧ a = b ∧ t2 = []) ∨ ∃ t3, t = t1 ++ b :: t3 ∧ t2 = t3 ++ [a] := by
  rcases List.eq_nil_or_concat t2 with h2 | ⟨t3, x, h2⟩
  · subst h2
    obtain ⟨h3, h4⟩ := List.append_inj' h (by simp)
    exact Or.inl ⟨h3, by simpa using h4, rfl⟩
  · subst h2
    have h5 : t ++ [a] = (t1 ++ b :: t3) ++ [x] := by
      rw [h]; simp
    obtain ⟨h3, h4⟩ := List.append_inj' h5 (by simp)
    have h6 : a = x := by simpa using h4
    exact Or.inr ⟨t3, h3, by rw [h6]; simp⟩

theorem setStat_apply (f : Nat → JStat) (j : Nat) (v : JStat) (x : Nat) :
    setStat f j v x = if x = j then v else f x := rfl

theorem setCnt_apply (f : Nat → Nat) (j : Nat) (v : Nat) (x : Nat) :
    setCnt f j v x = if x = j then v else f x := rfl

theorem releaseAll_apply (f : Nat → JStat) (l : List Nat) (x : Nat) :
    releaseAll f l x =
      if x ∈ l ∧ f x = JStat.waiting then JStat.released else f x := by
  induction l generalizing f with
  | nil => simp [releaseAll]
  | cons j rest ih =>
      rw [releaseAll, ih]
      by_cases hx : x = j
      · subst hx
        by_cases hw : f x = JStat.waiting
        · simp [releaseOne, hw]
        · simp [releaseOne, hw]
      · simp [releaseOne, hx, List.mem_cons]

theorem emittedReadies_append (l₁ l₂ : List Act) :
    emittedReadies (l₁ ++ l₂) = emittedReadies l₁ ++ emittedReadies l₂ := by
  induction l₁ with
  | nil => simp [emittedReadies]
  | cons a l ih => cases a <;> simp [emittedReadies, ih]

theorem emittedReadies_map_ready (l : List Nat) :
    emittedReadies (l.map Act.ready) = l := by
  induction l with
  | nil => rfl
  | cons a l ih => simp [emittedReadies, ih]

theorem countReady_append (j : Nat) (l₁ l₂ : List Act) :
    countReady j (l₁ ++ l₂) = countReady j l₁ + countReady j l₂ :=
  List.countP_append _ _ _

theorem countStepDone_append (j : Nat) (l₁ l₂ : List Act) :
    countStepDone j (l₁ ++ l₂) = countStepDone j l₁ + countStepDone j l₂ :=
  List.countP_append _ _ _

theorem countJobDone_append (j : Nat) (l₁ l₂ : List Act) :
    countJobDone j (l₁ ++ l₂) = countJobDone j l₁ + countJobDone j l₂ :=
  List.countP_append _ _ _

theorem countSettle_append (j : Nat) (l₁ l₂ : List Act) :
    countSettle j (l₁ ++ l₂) = countSettle j l₁ + countSettle j l₂ :=
  List.countP_append _ _ _

theorem countNewPhase_append (l₁ l₂ : List Act) :
    countNewPhase (l₁ ++ l₂) = countNewPhase l₁ + countNewPhase l₂ :=
  List.countP_append _ _ _

theorem ready_mem_iff_countReady {j : Nat} {t : List Act} :
    Act.ready j ∈ t ↔ 0 < countReady j t := by
  constructor
  · intro h
    have : isReadyFor j (Act.ready j) = true := by simp [isReadyFor]
    exact List.countP_pos_iff.mpr ⟨_, h, this⟩
  · intro h
    obtain ⟨a, ha, hp⟩ := List.countP_pos_iff.mp h
    cases a <;> simp [isReadyFor] at hp
    subst hp; exact ha

theorem countReady_map_ready (j : Nat) (l : List Nat) :
    countReady j (l.map Act.ready) = l.count j := by
  induction l with
  | nil => rfl
  | cons a l ih =>
      by_cases h : a = j
      · subst h
        simp [countReady, List.countP_cons, isReadyFor, List.count_cons] at ih ⊢
        omega
      · simp [countReady, List.countP_cons, isReadyFor, List.count_cons, h,
          Ne.symm h] at ih ⊢
        omega

theorem noReady_reported {j : Nat} {t : List Act} (h : Act.ready j ∉ t) :
    ReportedAfterLastReady j t := by
  intro u v heq _
  exact absurd (heq ▸ List.mem_append.mpr (Or.inr (List.mem_cons_self _ _))) h

theorem reported_snoc_other {j : Nat} {t : List Act} {a : Act}
    (hg : ReportedAfterLastReady j t) (ha : a ≠ Act.ready j) :
    ReportedAfterLastReady j (t ++ [a]) := by
  intro u v heq hnv
  rcases snoc_eq_append_cons heq with ⟨_, h2, _⟩ | ⟨t3, h1, h2⟩
  · exact absurd h2 ha
  · subst h2
    have hnv3 : Act.ready j ∉ t3 := fun hm => hnv (List.mem_append.mpr (Or.inl hm))
    rcases hg u t3 h1 hnv3 with ⟨k, hk⟩ | hk
    · exact Or.inl ⟨k, List.mem_append.mpr (Or.inl hk)⟩
    · exact Or.inr (List.mem_append.mpr (Or.inl hk))

theorem reported_snoc_stepDone {j : Nat} {t : List Act} (k : Nat) :
    ReportedAfterLastReady j (t ++ [Act.stepDone j k]) := by
  intro u v heq _
  rcases snoc_eq_append_cons heq with ⟨_, h2, _⟩ | ⟨t3, _, h2⟩
  · exact absurd h2 (by simp)
  · subst h2
    exact Or.inl ⟨k, List.mem_append.mpr (Or.inr (List.mem_singleton.mpr rfl))⟩

theorem reported_snoc_jobDone {j : Nat} {t : List Act} :
    ReportedAfterLastReady j (t ++ [Act.jobDone j]) := by
  intro u v heq _
  rcases snoc_eq_append_cons heq with ⟨_, h2, _⟩ | ⟨t3, _, h2⟩
  · exact absurd h2 (by simp)
  · subst h2
    exact Or.inr (List.mem_append.mpr (Or.inr (List.mem_singleton.mpr rfl)))

theorem reported_append_no_ready {j : Nat} {t : List Act} {l : List Act}
    (hg : ReportedAfterLastReady j t) (hl : Act.ready j ∉ l) :
    ReportedAfterLastReady j (t ++ l) := by
  induction l generalizing t with
  | nil => simpa using hg
  | cons a l ih =>
      have h1 : ReportedAfterLastReady j (t ++ [a]) :=
        reported_snoc_other hg (fun he => hl (he ▸ List.mem_cons_self _ _))
      have h2 : Act.ready j ∉ l := fun hm => hl (List.mem_cons_of_mem _ hm)
      have := ih h1 h2
      simpa using this

theorem nd_snoc_nonready {t : List Act} {a : Act}
    (h : NoDoubleRelease t) (ha : ∀ i, a ≠ Act.ready i) :
    NoDoubleRelease (t ++ [a]) := by
  intro j t1 t2 t3 heq hnr
  have heq2 : t ++ [a] = (t1 ++ Act.ready j :: t2) ++ Act.ready j :: t3 := by
    rw [heq]
  rcases snoc_eq_append_cons heq2 with ⟨_, h2, _⟩ | ⟨t4, h1, _⟩
  · exact absurd h2 (ha j)
  · exact h j t1 t2 t4 (by rw [h1]) hnr

theorem nd_snoc_ready {t : List Act} {j₀ : Nat}
    (h : NoDoubleRelease t) (hg : ReportedAfterLastReady j₀ t) :
    NoDoubleRelease (t ++ [Act.ready j₀]) := by
  intro j t1 t2 t3 heq hnr
  have heq2 : t ++ [Act.ready j₀] =
      (t1 ++ Act.ready j :: t2) ++ Act.ready j :: t3 := by
    rw [heq]
  rcases snoc_eq_append_cons heq2 with ⟨h1, h2, _⟩ | ⟨t4, h1, _⟩
  · have hj : j₀ = j := by injection h2
    subst hj
    exact hg t1 t2 h1 hnr
  · exact h j t1 t2 t4 (by rw [h1]) hnr

theorem nd_append_readies {t : List Act} {l : List Nat}
    (h : NoDoubleRelease t) (hd : l.Nodup)
    (hg : ∀ x ∈ l, ReportedAfterLastReady x t) :
    NoDoubleRelease (t ++ l.map Act.ready) := by
  induction l generalizing t with
  | nil => simpa using h
  | cons x l ih =>
      have h1 : NoDoubleRelease (t ++ [Act.ready x]) :=
        nd_snoc_ready h (hg x (List.mem_cons_self _ _))
      have h2 : ∀ y ∈ l, ReportedAfterLastReady y (t ++ [Act.ready x]) := by
        intro y hy
        have hxy : y ≠ x := fun he => (List.nodup_cons.mp hd).1 (he ▸ hy)
        exact reported_snoc_other (hg y (List.mem_cons_of_mem _ hy))
          (by simpa using Ne.symm hxy)
      have := ih h1 (List.nodup_cons.mp hd).2 h2
      simpa using this

theorem barrier_snoc_nonphase {t : List Act} {a : Act}
    (h : BarrierProp t) (ha : ∀ s, a ≠ Act.newPhase s) :
    BarrierProp (t ++ [a]) := by
  intro u s v s₂ w heq hnv
  have heq2 : t ++ [a] = (u ++ Act.newPhase s :: v) ++ Act.newPhase s₂ :: w := by
    rw [heq]
  rcases snoc_eq_append_cons heq2 with ⟨_, h2, _⟩ | ⟨t4, h1, _⟩
  · exact absurd h2 (ha s₂)
  · exact h u s v s₂ t4 (by rw [h1]) hnv

theorem barrier_snoc_phase {t : List Act} {s₀ : List Nat}
    (h : BarrierProp t)
    (hAll : ∀ u s v, t = u ++ Act.newPhase s :: v → (∀ x, Act.newPhase x ∉ v) →
      ∀ x ∈ s, (∃ k, Act.stepDone x k ∈ v) ∨ Act.jobDone x ∈ v) :
    BarrierProp (t ++ [Act.newPhase s₀]) := by
  intro u s v s₂ w heq hnv
  have heq2 : t ++ [Act.newPhase s₀] =
      (u ++ Act.newPhase s :: v) ++ Act.newPhase s₂ :: w := by
    rw [heq]
  rcases snoc_eq_append_cons heq2 with ⟨h1, _, _⟩ | ⟨t4, h1, _⟩
  · exact hAll u s v h1 hnv
  · exact h u s v s₂ t4 (by rw [h1]) hnv

theorem barrier_append_nonphase {t : List Act} {l : List Act}
    (h : BarrierProp t) (hl : ∀ a ∈ l, ∀ s, a ≠ Act.newPhase s) :
    BarrierProp (t ++ l) := by
  induction l generalizing t with
  | nil => simpa using h
  | cons a l ih =>
      have h1 : BarrierProp (t ++ [a]) :=
        barrier_snoc_nonphase h (hl a (List.mem_cons_self _ _))
      have := ih h1 (fun b hb => hl b (List.mem_cons_of_mem _ hb))
      simpa using this

theorem lastNewPhase_unique {u1 u2 : List Act} {s1 s2 : List Nat}
    {v1 v2 : List Act}
    (h : u1 ++ Act.newPhase s1 :: v1 = u2 ++ Act.newPhase s2 :: v2)
    (h1 : ∀ x, Act.newPhase x ∉ v1) (h2 : ∀ x, Act.newPhase x ∉ v2) :
    s1 = s2 ∧ v1 = v2 := by
  induction u1 generalizing u2 with
  | nil =>
      cases u2 with
      | nil =>
          simp only [List.nil_append, List.cons.injEq] at h
          exact ⟨by injection h.1, h.2⟩
      | cons b u2 =>
          simp only [List.nil_append, List.cons_append, List.cons.injEq] at h
          exact absurd (h.2 ▸ List.mem_append.mpr
            (Or.inr (List.mem_cons_self _ _))) (h1 s2)
  | cons b u1 ih =>
      cases u2 with
      | nil =>
          simp only [List.nil_append, List.cons_append, List.cons.injEq] at h
          exact absurd (h.2.symm ▸ List.mem_append.mpr
            (Or.inr (List.mem_cons_self _ _))) (h2 s1)
      | cons b2 u2 =>
          simp only [List.cons_append, List.cons.injEq] at h
          exact ih h.2

theorem allReported_of_lastSnapshot {σ : GState} {t : List Act}
    (hLS : LastSnapshot σ t) (hp : σ.coord.phasePendingJobs = []) :
    ∀ u s v, t = u ++ Act.newPhase s :: v → (∀ x, Act.newPhase x ∉ v) →
      ∀ x ∈ s, (∃ k, Act.stepDone x k ∈ v) ∨ Act.jobDone x ∈ v := by
  obtain ⟨u0, s0, v0, heq0, hnp0, hrep0⟩ := hLS
  intro u s v heq hnv x hx
  obtain ⟨hs, hv⟩ := lastNewPhase_unique (heq0 ▸ heq) hnp0 hnv
  subst hs; subst hv
  rcases hrep0 x hx with hmem | hrep
  · rw [hp] at hmem; exact absurd hmem (List.not_mem_nil x)
  · exact hrep

theorem pg_snoc {t : List Act} {a : Act} (h : PhaseGate t)
    (ha : ∀ j p, a = Act.beginWork j p → 1 ≤ p → p + 1 ≤ countNewPhase t) :
    PhaseGate (t ++ [a]) := by
  intro j p t1 t2 heq hp
  rcases snoc_eq_append_cons heq with ⟨h1, h2, _⟩ | ⟨t3, h1, _⟩
  · subst h1; exact ha j p h2 hp
  · exact h j p t1 t3 h1 hp

theorem rg_snoc {np : Nat → Nat} {t : List Act} {a : Act} (h : ReadyGate np t)
    (ha : ∀ j p, a = Act.beginWork j p → 1 ≤ np j → Act.ready j ∈ t) :
    ReadyGate np (t ++ [a]) := by
  intro j p t1 t2 heq hp
  rcases snoc_eq_append_cons heq with ⟨h1, h2, _⟩ | ⟨t3, h1, _⟩
  · subst h1; exact ha j p h2 hp
  · exact h j p t1 t3 h1 hp

theorem pg_append_nobegin {t : List Act} {l : List Act} (h : PhaseGate t)
    (hl : ∀ a ∈ l, ∀ j p, a ≠ Act.beginWork j p) : PhaseGate (t ++ l) := by
  induction l generalizing t with
  | nil => simpa using h
  | cons a l ih =>
      have h1 : PhaseGate (t ++ [a]) :=
        pg_snoc h (fun j p he => absurd he (hl a (List.mem_cons_self _ _) j p))
      have := ih h1 (fun b hb => hl b (List.mem_cons_of_mem _ hb))
      simpa using this

theorem rg_append_nobegin {np : Nat → Nat} {t : List Act} {l : List Act}
    (h : ReadyGate np t) (hl : ∀ a ∈ l, ∀ j p, a ≠ Act.beginWork j p) :
    ReadyGate np (t ++ l) := by
  induction l generalizing t with
  | nil => simpa using h
  | cons a l ih =>
      have h1 : ReadyGate np (t ++ [a]) :=
        rg_snoc h (fun j p he => absurd he (hl a (List.mem_cons_self _ _) j p))
      have := ih h1 (fun b hb => hl b (List.mem_cons_of_mem _ hb))
      simpa using this

theorem nd_of_countReady_le_one {t : List Act}
    (h : ∀ j, countReady j t ≤ 1) : NoDoubleRelease t := by
  intro j t1 t2 t3 heq _
  exfalso
  have := h j
  rw [heq, countReady_append] at this
  simp only [countReady, List.countP_cons, List.countP_append] at this
  simp only [isReadyFor, decide_True, if_true] at this
  omega

theorem barrier_of_countNewPhase_le_one {t : List Act}
    (h : countNewPhase t ≤ 1) : BarrierProp t := by
  intro u s v s₂ w heq _
  exfalso
  rw [heq, countNewPhase_append] at h
  simp only [countNewPhase, List.countP_cons, List.countP_append] at h
  simp only [isNewPhaseAct, if_true] at h
  omega

theorem ready_mem_map {x : Nat} {l : List Nat} :
    Act.ready x ∈ l.map Act.ready ↔ x ∈ l := by
  constructor
  · intro h
    obtain ⟨y, hy, he⟩ := List.mem_map.mp h
    have : y = x := by injection he
    exact this ▸ hy
  · intro h; exact List.mem_map.mpr ⟨x, h, rfl⟩

theorem count_nodup {l : List Nat} (hd : l.Nodup) (x : Nat) :
    l.count x = if x ∈ l then 1 else 0 := by
  by_cases h : x ∈ l
  · simp [h, List.count_eq_one_of_mem hd h]
  · simp [h, List.count_eq_zero_of_not_mem h]

theorem erase_sub {l : List Nat} {a x : Nat} (hx : x ∈ l.erase a) : x ∈ l :=
  List.erase_subset _ _ hx

/-! ## The run invariant

`Mid` collects the facts preserved by every step, phrased over the
coordinator state, the phase counters, the job statuses, and the trace; it
is stated separately from `Inv` because inside a handler (after deleting
the reporting job, before `dispatch` runs) the two progress-oriented
fields temporarily fail. -/

structure Mid (n c : Nat) (np : Nat → Nat) (oc : Nat → Outcome)
    (co : CoordState) (cnt : Nat → Nat) (js : Nat → JStat) (t : List Act) :
    Prop where
  nodupJ : co.jobs.Nodup
  nodupQ : co.queuedJobs.Nodup
  nodupP : co.phasePendingJobs.Nodup
  subPJ : ∀ x ∈ co.phasePendingJobs, x ∈ co.jobs
  subQP : ∀ x ∈ co.queuedJobs, x ∈ co.phasePendingJobs
  subJR : co.jobs.Sublist (List.range n)
  memIff : ∀ j, j ∈ co.jobs ↔ js j ≠ JStat.done
  inflightPending : ∀ j, js j = JStat.released ∨ js j = JStat.working ∨
    js j = JStat.finishing → j ∈ co.phasePendingJobs
  waitingQueued : ∀ j ∈ co.phasePendingJobs, js j = JStat.waiting →
    j ∈ co.queuedJobs
  queuedWaiting : ∀ j ∈ co.queuedJobs, 1 ≤ np j → js j = JStat.waiting
  queuedRep : ∀ j ∈ co.queuedJobs, ReportedAfterLastReady j t
  waitingRep : ∀ j, js j = JStat.waiting ∨ js j = JStat.done →
    ReportedAfterLastReady j t
  cntLe : ∀ j, cnt j ≤ np j
  waitingCnt : ∀ j, js j = JStat.waiting → 1 ≤ cnt j
  activeCnt : ∀ j, js j = JStat.released ∨ js j = JStat.working →
    1 ≤ cnt j ∨ np j = 0
  zeroNp : ∀ j, np j = 0 → js j ≠ JStat.released
  readyCnt : ∀ j, 1 ≤ np j →
    countReady j t = cnt j - (if js j = JStat.waiting then 1 else 0)
  readyLe : ∀ j, 1 ≤ np j → countReady j t ≤ countNewPhase t
  queuedReadyLt : ∀ j ∈ co.queuedJobs, 1 ≤ np j →
    countReady j t < countNewPhase t
  lastSnap : ∃ u s v, t = u ++ Act.newPhase s :: v ∧
    (∀ x, Act.newPhase x ∉ v) ∧
    ∀ x ∈ s, x ∈ co.phasePendingJobs ∨
      (∃ k, Act.stepDone x k ∈ v) ∨ Act.jobDone x ∈ v
  noDouble : NoDoubleRelease t
  barrier : BarrierProp t
  phaseGate : PhaseGate t
  readyGate : ReadyGate np t
  settleCnt : ∀ j, j < n →
    countSettle j t =
      (if js j = JStat.finishing ∨ js j = JStat.done then 1 else 0)
  settleTag : ∀ j, j < n → js j = JStat.finishing ∨ js j = JStat.done →
    Act.settle j (oc j) ∈ t
  jobDoneCnt : ∀ j, j < n →
    countJobDone j t = (if js j = JStat.done then 1 else 0)

/-- The full invariant of reachable configurations. -/
def Inv (n c : Nat) (np : Nat → Nat) (oc : Nat → Outcome)
    (σ : GState) (t : List Act) : Prop :=
  Mid n c np oc σ.coord σ.cnt σ.jstat t ∧
    (σ.coord.jobs ≠ [] → σ.coord.phasePendingJobs ≠ []) ∧
    (σ.coord.queuedJobs ≠ [] → ∃ j, σ.jstat j = JStat.released ∨
      σ.jstat j = JStat.working ∨ σ.jstat j = JStat.finishing)

theorem isEmpty_eq_true_iff {l : List Nat} : l.isEmpty = true ↔ l = [] := by
  cases l <;> simp

theorem countP_map_ready_zero (p : Act → Bool)
    (hp : ∀ j, p (Act.ready j) = false) (l : List Nat) :
    (l.map Act.ready).countP p = 0 := by
  induction l with
  | nil => rfl
  | cons a l ih => simp [List.countP_cons, hp, ih]

theorem allReported_of_lastSnap {pend : List Nat} {t : List Act}
    (hLS : ∃ u s v, t = u ++ Act.newPhase s :: v ∧ (∀ x, Act.newPhase x ∉ v) ∧
      ∀ x ∈ s, x ∈ pend ∨ (∃ k, Act.stepDone x k ∈ v) ∨ Act.jobDone x ∈ v)
    (hp : pend = []) :
    ∀ u s v, t = u ++ Act.newPhase s :: v → (∀ x, Act.newPhase x ∉ v) →
      ∀ x ∈ s, (∃ k, Act.stepDone x k ∈ v) ∨ Act.jobDone x ∈ v := by
  obtain ⟨u0, s0, v0, heq0, hnp0, hrep0⟩ := hLS
  intro u s v heq hnv x hx
  obtain ⟨hs, hv⟩ := lastNewPhase_unique (heq0 ▸ heq) hnp0 hnv
  subst hs; subst hv
  rcases hrep0 x hx with hmem | hrep
  · rw [hp] at hmem; exact absurd hmem (List.not_mem_nil x)
  · exact hrep

/-- Effect of the `startNewPhase` branch of a handler: from an
intermediate configuration with `phasePendingJobs` empty, the full
invariant holds again after the phase start. -/
theorem newPhase_spec {n c : Nat} {np : Nat → Nat} {oc : Nat → Outcome}
    {co : CoordState} {cnt : Nat → Nat} {js : Nat → JStat} {t : List Act}
    (hm : Mid n c np oc co cnt js t) (hc : 1 ≤ c)
    (hp : co.phasePendingJobs = []) :
    Inv n c np oc
      ⟨⟨co.jobs, co.jobs.drop c, co.jobs⟩, cnt,
        releaseAll js (co.jobs.take c)⟩
      (t ++ (Act.newPhase co.jobs :: (co.jobs.take c).map Act.ready)) := by
  have hact : ∀ x ∈ co.jobs, js x = JStat.waiting := by
    intro x hx
    have hnd : js x ≠ JStat.done := (hm.memIff x).mp hx
    cases hjs : js x with
    | waiting => rfl
    | released =>
        have := hm.inflightPending x (Or.inl hjs)
        rw [hp] at this; exact absurd this (List.not_mem_nil x)
    | working =>
        have := hm.inflightPending x (Or.inr (Or.inl hjs))
        rw [hp] at this; exact absurd this (List.not_mem_nil x)
    | finishing =>
        have := hm.inflightPending x (Or.inr (Or.inr hjs))
        rw [hp] at this; exact absurd this (List.not_mem_nil x)
    | done => exact absurd hjs hnd
  have hTsub : ∀ x ∈ co.jobs.take c, x ∈ co.jobs :=
    fun x hx => List.take_subset c _ hx
  have hTnd : (co.jobs.take c).Nodup := (List.take_sublist c _).nodup hm.nodupJ
  have hDnd : (co.jobs.drop c).Nodup := (List.drop_sublist c _).nodup hm.nodupJ
  have hTD : ∀ x ∈ co.jobs.take c, x ∉ co.jobs.drop c :=
    fun x hx hd => List.disjoint_take_drop hm.nodupJ (le_refl c) hx hd
  have hjs2 : ∀ x, releaseAll js (co.jobs.take c) x =
      if x ∈ co.jobs.take c then JStat.released else js x := by
    intro x
    rw [releaseAll_apply]
    by_cases hx : x ∈ co.jobs.take c
    · simp [hx, hact x (hTsub x hx)]
    · simp [hx]
  have hsplit : ∀ x ∈ co.jobs, x ∉ co.jobs.take c → x ∈ co.jobs.drop c := by
    intro x hx hnt
    have := List.take_append_drop c co.jobs
    rcases List.mem_append.mp (this ▸ hx) with h1 | h1
    · exact absurd h1 hnt
    · exact h1
  have hcb : ∀ x, countReady x (Act.newPhase co.jobs ::
      (co.jobs.take c).map Act.ready) = if x ∈ co.jobs.take c then 1 else 0 := by
    intro x
    have h1 : countReady x (Act.newPhase co.jobs ::
        (co.jobs.take c).map Act.ready) =
        countReady x ((co.jobs.take c).map Act.ready) := by
      simp [countReady, List.countP_cons, isReadyFor]
    rw [h1, countReady_map_ready, count_nodup hTnd]
  have hnb : countNewPhase (Act.newPhase co.jobs ::
      (co.jobs.take c).map Act.ready) = 1 := by
    unfold countNewPhase
    rw [List.countP_cons, countP_map_ready_zero isNewPhaseAct (fun j => rfl)]
    rfl
  have hnoready : ∀ x, x ∉ co.jobs.take c →
      Act.ready x ∉ (Act.newPhase co.jobs :: (co.jobs.take c).map Act.ready) := by
    intro x hx hmem
    rcases List.mem_cons.mp hmem with h1 | h1
    · exact absurd h1 (by simp)
    · exact hx (ready_mem_map.mp h1)
  have hGext : ∀ x, x ∉ co.jobs.take c → ReportedAfterLastReady x t →
      ReportedAfterLastReady x (t ++ (Act.newPhase co.jobs ::
        (co.jobs.take c).map Act.ready)) :=
    fun x hx hg => reported_append_no_ready hg (hnoready x hx)
  have hB : t ++ (Act.newPhase co.jobs :: (co.jobs.take c).map Act.ready) =
      (t ++ [Act.newPhase co.jobs]) ++ (co.jobs.take c).map Act.ready := by
    simp
  have hzero : ∀ (p : Act → Bool), (∀ j, p (Act.ready j) = false) →
      p (Act.newPhase co.jobs) = false →
      (Act.newPhase co.jobs :: (co.jobs.take c).map Act.ready).countP p = 0 := by
    intro p h1 h2
    rw [List.countP_cons, countP_map_ready_zero p h1, h2]
    rfl
  show Mid n c np oc ⟨co.jobs, co.jobs.drop c, co.jobs⟩ cnt
      (releaseAll js (co.jobs.take c))
      (t ++ (Act.newPhase co.jobs :: (co.jobs.take c).map Act.ready)) ∧
    (co.jobs ≠ [] → co.jobs ≠ []) ∧
    (co.jobs.drop c ≠ [] → ∃ j, releaseAll js (co.jobs.take c) j = JStat.released ∨
      releaseAll js (co.jobs.take c) j = JStat.working ∨
      releaseAll js (co.jobs.take c) j = JStat.finishing)
  refine ⟨?_, ?_, ?_⟩
  · exact
      { nodupJ := hm.nodupJ
        nodupQ := hDnd
        nodupP := hm.nodupJ
        subPJ := fun x hx => hx
        subQP := fun x hx => List.drop_subset c _ hx
        subJR := hm.subJR
        memIff := by
          intro j
          constructor
          · intro hj
            rw [hjs2 j]
            by_cases hjt : j ∈ co.jobs.take c
            · simp [hjt]
            · simp [hjt, hact j hj]
          · intro hj
            rw [hjs2 j] at hj
            by_cases hjt : j ∈ co.jobs.take c
            · exact hTsub j hjt
            · rw [if_neg hjt] at hj
              exact (hm.memIff j).mpr hj
        inflightPending := by
          intro j hj
          rw [hjs2 j] at hj
          by_cases hjt : j ∈ co.jobs.take c
          · exact hTsub j hjt
          · rw [if_neg hjt] at hj
            have := hm.inflightPending j hj
            rw [hp] at this
            exact absurd this (List.not_mem_nil j)
        waitingQueued := by
          intro j hj hw
          rw [hjs2 j] at hw
          by_cases hjt : j ∈ co.jobs.take c
          · rw [if_pos hjt] at hw; exact absurd hw (by simp)
          · exact hsplit j hj hjt
        queuedWaiting := by
          intro j hj _
          rw [hjs2 j]
          have hjj : j ∈ co.jobs := List.drop_subset c _ hj
          have hjt : j ∉ co.jobs.take c := fun ht => hTD j ht hj
          simp [hjt, hact j hjj]
        queuedRep := by
          intro j hj
          have hjj : j ∈ co.jobs := List.drop_subset c _ hj
          have hjt : j ∉ co.jobs.take c := fun ht => hTD j ht hj
          exact hGext j hjt (hm.waitingRep j (Or.inl (hact j hjj)))
        waitingRep := by
          intro j hj
          rw [hjs2 j] at hj
          by_cases hjt : j ∈ co.jobs.take c
          · rw [if_pos hjt] at hj
            rcases hj with hj | hj <;> exact absurd hj (by simp)
          · rw [if_neg hjt] at hj
            exact hGext j hjt (hm.waitingRep j hj)
        cntLe := hm.cntLe
        waitingCnt := by
          intro j hj
          rw [hjs2 j] at hj
          by_cases hjt : j ∈ co.jobs.take c
          · rw [if_pos hjt] at hj; exact absurd hj (by simp)
          · rw [if_neg hjt] at hj; exact hm.waitingCnt j hj
        activeCnt := by
          intro j hj
          rw [hjs2 j] at hj
          by_cases hjt : j ∈ co.jobs.take c
          · have hw := hact j (hTsub j hjt)
            exact Or.inl (hm.waitingCnt j hw)
          · rw [if_neg hjt] at hj; exact hm.activeCnt j hj
        zeroNp := by
          intro j hz hj
          rw [hjs2 j] at hj
          by_cases hjt : j ∈ co.jobs.take c
          · have hw := hact j (hTsub j hjt)
            have h1 := hm.waitingCnt j hw
            have h2 := hm.cntLe j
            omega
          · rw [if_neg hjt] at hj; exact hm.zeroNp j hz hj
        readyCnt := by
          intro j hnp
          rw [countReady_append, hcb j, hjs2 j]
          by_cases hjt : j ∈ co.jobs.take c
          · have hw := hact j (hTsub j hjt)
            have h1 : countReady j t = cnt j - 1 := by
              rw [hm.readyCnt j hnp, hw]; simp
            have h2 := hm.waitingCnt j hw
            simp only [if_pos hjt]
            have hne : ¬(JStat.released = JStat.waiting) := by simp
            rw [if_neg hne]
            omega
          · simp only [if_neg hjt]
            rw [hm.readyCnt j hnp]
            omega
        readyLe := by
          intro j hnp
          rw [countReady_append, countNewPhase_append, hcb j, hnb]
          have h1 := hm.readyLe j hnp
          by_cases hjt : j ∈ co.jobs.take c
          · simp only [if_pos hjt]; omega
          · simp only [if_neg hjt]; omega
        queuedReadyLt := by
          intro j hj hnp
          rw [countReady_append, countNewPhase_append, hcb j, hnb]
          have hjt : j ∉ co.jobs.take c := fun ht => hTD j ht hj
          have h1 := hm.readyLe j hnp
          simp only [if_neg hjt]
          omega
        lastSnap := by
          refine ⟨t, co.jobs, (co.jobs.take c).map Act.ready, rfl, ?_, ?_⟩
          · intro x hx
            obtain ⟨y, _, he⟩ := List.mem_map.mp hx
            exact absurd he (by simp)
          · intro x hx
            exact Or.inl hx
        noDouble := by
          rw [hB]
          refine nd_append_readies ?_ hTnd ?_
          · exact nd_snoc_nonready hm.noDouble (by intro i; simp)
          · intro x hx
            exact reported_snoc_other
              (hm.waitingRep x (Or.inl (hact x (hTsub x hx)))) (by simp)
        barrier := by
          rw [hB]
          refine barrier_append_nonphase ?_ ?_
          · exact barrier_snoc_phase hm.barrier
              (allReported_of_lastSnap hm.lastSnap hp)
          · intro a ha s
            obtain ⟨y, _, he⟩ := List.mem_map.mp ha
            rw [← he]; simp
        phaseGate := by
          refine pg_append_nobegin hm.phaseGate ?_
          intro a ha j p
          rcases List.mem_cons.mp ha with h1 | h1
          · rw [h1]; simp
          · obtain ⟨y, _, he⟩ := List.mem_map.mp h1
            rw [← he]; simp
        readyGate := by
          refine rg_append_nobegin hm.readyGate ?_
          intro a ha j p
          rcases List.mem_cons.mp ha with h1 | h1
          · rw [h1]; simp
          · obtain ⟨y, _, he⟩ := List.mem_map.mp h1
            rw [← he]; simp
        settleCnt := by
          intro j hjn
          rw [countSettle_append]
          have h0 : countSettle j (Act.newPhase co.jobs ::
              (co.jobs.take c).map Act.ready) = 0 :=
            hzero _ (fun i => rfl) rfl
          rw [h0, hjs2 j]
          by_cases hjt : j ∈ co.jobs.take c
          · have hw := hact j (hTsub j hjt)
            rw [hm.settleCnt j hjn, hw]
            simp [hjt]
          · rw [if_neg hjt, hm.settleCnt j hjn]
            omega
        settleTag := by
          intro j hjn hj
          rw [hjs2 j] at hj
          by_cases hjt : j ∈ co.jobs.take c
          · rw [if_pos hjt] at hj
            rcases hj with hj | hj <;> exact absurd hj (by simp)
          · rw [if_neg hjt] at hj
            exact List.mem_append.mpr (Or.inl (hm.settleTag j hjn hj))
        jobDoneCnt := by
          intro j hjn
          rw [countJobDone_append]
          have h0 : countJobDone j (Act.newPhase co.jobs ::
              (co.jobs.take c).map Act.ready) = 0 :=
            hzero _ (fun i => rfl) rfl
          rw [h0, hjs2 j]
          by_cases hjt : j ∈ co.jobs.take c
          · have hw := hact j (hTsub j hjt)
            rw [hm.jobDoneCnt j hjn, hw]
            simp [hjt]
          · rw [if_neg hjt, hm.jobDoneCnt j hjn]
            omega }
  · exact fun h => h
  · intro hq
    have hlen : c < co.jobs.length := by
      by_contra hcon
      push_neg at hcon
      exact hq (List.drop_eq_nil_of_le hcon)
    have hTne : co.jobs.take c ≠ [] := by
      have h1 : (co.jobs.take c).length = min c co.jobs.length :=
        List.length_take c co.jobs
      intro he
      rw [he] at h1
      simp only [List.length_nil] at h1
      omega
    obtain ⟨x, hx⟩ := List.exists_mem_of_ne_nil _ hTne
    refine ⟨x, Or.inl ?_⟩
    rw [hjs2 x]
    simp [hx]

/-- Effect of the `startQueuedJob` branch of a handler: from an
intermediate configuration with `phasePendingJobs` nonempty and a nonempty
queue, the full invariant holds again after releasing the queue head. -/
theorem queued_spec {n c : Nat} {np : Nat → Nat} {oc : Nat → Outcome}
    {co : CoordState} {cnt : Nat → Nat} {js : Nat → JStat} {t : List Act}
    {h0 : Nat} {rest : List Nat}
    (hm : Mid n c np oc co cnt js t) (hp : co.phasePendingJobs ≠ [])
    (hq : co.queuedJobs = h0 :: rest) :
    Inv n c np oc
      ⟨⟨co.jobs, rest, co.phasePendingJobs⟩, cnt, releaseAll js [h0]⟩
      (t ++ [Act.ready h0]) := by
  have hhq : h0 ∈ co.queuedJobs := by
    rw [hq]; exact List.mem_cons_self _ _
  have hpend : h0 ∈ co.phasePendingJobs := hm.subQP h0 hhq
  have hjobs : h0 ∈ co.jobs := hm.subPJ h0 hpend
  have hG : ReportedAfterLastReady h0 t := hm.queuedRep h0 hhq
  have hndq : (h0 :: rest).Nodup := hq ▸ hm.nodupQ
  have hh_not_rest : h0 ∉ rest := (List.nodup_cons.mp hndq).1
  have hrest_nd : rest.Nodup := (List.nodup_cons.mp hndq).2
  have hrest_sub : ∀ x ∈ rest, x ∈ co.queuedJobs := by
    intro x hx; rw [hq]; exact List.mem_cons_of_mem _ hx
  have hjs1 : ∀ x, releaseAll js [h0] x =
      if x = h0 ∧ js x = JStat.waiting then JStat.released else js x := by
    intro x; rw [releaseAll_apply]; simp
  have F4 : ∀ x, x ≠ h0 → releaseAll js [h0] x = js x := by
    intro x hx
    rw [hjs1 x, if_neg (fun hc2 => hx hc2.1)]
  have hstat : (js h0 = JStat.waiting ∧ releaseAll js [h0] h0 = JStat.released ∧
        1 ≤ cnt h0) ∨
      (np h0 = 0 ∧ releaseAll js [h0] h0 = js h0 ∧
        (js h0 = JStat.working ∨ js h0 = JStat.finishing)) := by
    by_cases hnp0 : 1 ≤ np h0
    · have hw := hm.queuedWaiting h0 hhq hnp0
      exact Or.inl ⟨hw, by rw [hjs1]; simp [hw], hm.waitingCnt h0 hw⟩
    · have hz0 : np h0 = 0 := by omega
      have hnw0 : js h0 ≠ JStat.waiting := by
        intro hw
        have h1 := hm.waitingCnt h0 hw
        have h2 := hm.cntLe h0
        omega
      have heq0 : releaseAll js [h0] h0 = js h0 := by
        rw [hjs1, if_neg (fun hc2 => hnw0 hc2.2)]
      have hnd0 : js h0 ≠ JStat.done := (hm.memIff h0).mp hjobs
      have hnr0 : js h0 ≠ JStat.released := hm.zeroNp h0 hz0
      refine Or.inr ⟨hz0, heq0, ?_⟩
      cases hs : js h0 with
      | waiting => exact absurd hs hnw0
      | released => exact absurd hs hnr0
      | working => exact Or.inl rfl
      | finishing => exact Or.inr rfl
      | done => exact absurd hs hnd0
  have F1 : releaseAll js [h0] h0 ≠ JStat.done := by
    rcases hstat with ⟨_, hr, _⟩ | ⟨_, he, hwf⟩
    · rw [hr]; simp
    · rw [he]; rcases hwf with h | h <;> rw [h] <;> simp
  have F2 : releaseAll js [h0] h0 ≠ JStat.waiting := by
    rcases hstat with ⟨_, hr, _⟩ | ⟨_, he, hwf⟩
    · rw [hr]; simp
    · rw [he]; rcases hwf with h | h <;> rw [h] <;> simp
  have F3 : releaseAll js [h0] h0 = JStat.released ∨
      releaseAll js [h0] h0 = JStat.working ∨
      releaseAll js [h0] h0 = JStat.finishing := by
    rcases hstat with ⟨_, hr, _⟩ | ⟨_, he, hwf⟩
    · exact Or.inl hr
    · rcases hwf with h | h
      · exact Or.inr (Or.inl (he.trans h))
      · exact Or.inr (Or.inr (he.trans h))
  have F6 : ∀ x, releaseAll js [h0] x = js x ∨
      (js x = JStat.waiting ∧ releaseAll js [h0] x = JStat.released) := by
    intro x
    rw [hjs1 x]
    by_cases hx : x = h0 ∧ js x = JStat.waiting
    · exact Or.inr ⟨hx.2, if_pos hx⟩
    · exact Or.inl (if_neg hx)
  have F8 : ∀ x, (releaseAll js [h0] x = JStat.finishing ∨
        releaseAll js [h0] x = JStat.done) ↔
      (js x = JStat.finishing ∨ js x = JStat.done) := by
    intro x
    rcases F6 x with he | ⟨hw, he⟩
    · rw [he]
    · rw [he, hw]; simp
  have F9 : ∀ x, releaseAll js [h0] x = JStat.done ↔ js x = JStat.done := by
    intro x
    rcases F6 x with he | ⟨hw, he⟩
    · rw [he]
    · rw [he, hw]; simp
  have hcr1 : ∀ j, countReady j [Act.ready h0] = if j = h0 then 1 else 0 := by
    intro j
    by_cases hj : j = h0
    · subst hj; simp [countReady, List.countP_cons, isReadyFor]
    · simp [countReady, List.countP_cons, isReadyFor, Ne.symm hj, hj]
  have hnp1 : countNewPhase [Act.ready h0] = 0 := by
    simp [countNewPhase, List.countP_cons, isNewPhaseAct]
  show Mid n c np oc ⟨co.jobs, rest, co.phasePendingJobs⟩ cnt
      (releaseAll js [h0]) (t ++ [Act.ready h0]) ∧
    (co.jobs ≠ [] → co.phasePendingJobs ≠ []) ∧
    (rest ≠ [] → ∃ j, releaseAll js [h0] j = JStat.released ∨
      releaseAll js [h0] j = JStat.working ∨
      releaseAll js [h0] j = JStat.finishing)
  refine ⟨?_, fun _ => hp, fun _ => ⟨h0, F3⟩⟩
  exact
    { nodupJ := hm.nodupJ
      nodupQ := hrest_nd
      nodupP := hm.nodupP
      subPJ := hm.subPJ
      subQP := fun x hx => hm.subQP x (hrest_sub x hx)
      subJR := hm.subJR
      memIff := by
        intro j
        by_cases hj0 : j = h0
        · subst hj0
          exact ⟨fun _ => F1, fun _ => hjobs⟩
        · rw [F4 j hj0]
          exact hm.memIff j
      inflightPending := by
        intro j hj
        by_cases hj0 : j = h0
        · subst hj0; exact hpend
        · rw [F4 j hj0] at hj
          exact hm.inflightPending j hj
      waitingQueued := by
        intro j hjp hw
        have hj0 : j ≠ h0 := fun he => F2 (he ▸ hw)
        rw [F4 j hj0] at hw
        have := hm.waitingQueued j hjp hw
        rw [hq] at this
        rcases List.mem_cons.mp this with h1 | h1
        · exact absurd h1 hj0
        · exact h1
      queuedWaiting := by
        intro j hj hnp
        have hj0 : j ≠ h0 := fun he => hh_not_rest (he ▸ hj)
        rw [F4 j hj0]
        exact hm.queuedWaiting j (hrest_sub j hj) hnp
      queuedRep := by
        intro j hj
        have hj0 : j ≠ h0 := fun he => hh_not_rest (he ▸ hj)
        exact reported_snoc_other (hm.queuedRep j (hrest_sub j hj))
          (by simpa using Ne.symm hj0)
      waitingRep := by
        intro j hj
        by_cases hj0 : j = h0
        · subst hj0
          rcases hj with h | h
          · exact absurd h F2
          · exact absurd h F1
        · rw [F4 j hj0] at hj
          exact reported_snoc_other (hm.waitingRep j hj)
            (by simpa using Ne.symm hj0)
      cntLe := hm.cntLe
      waitingCnt := by
        intro j hw
        have hj0 : j ≠ h0 := fun he => F2 (he ▸ hw)
        rw [F4 j hj0] at hw
        exact hm.waitingCnt j hw
      activeCnt := by
        intro j hj
        by_cases hj0 : j = h0
        · subst hj0
          rcases hstat with ⟨_, _, hcn⟩ | ⟨hz, _, _⟩
          · exact Or.inl hcn
          · exact Or.inr hz
        · rw [F4 j hj0] at hj
          exact hm.activeCnt j hj
      zeroNp := by
        intro j hz hj
        by_cases hj0 : j = h0
        · subst hj0
          rcases hstat with ⟨hw, _, _⟩ | ⟨_, he, _⟩
          · have h1 := hm.waitingCnt j hw
            have h2 := hm.cntLe j
            omega
          · rw [he] at hj
            exact hm.zeroNp j hz hj
        · rw [F4 j hj0] at hj
          exact hm.zeroNp j hz hj
      readyCnt := by
        intro j hnp
        rw [countReady_append, hcr1 j]
        by_cases hj0 : j = h0
        · subst hj0
          rcases hstat with ⟨hw, hr, hcn⟩ | ⟨hz, _, _⟩
          · have h1 : countReady j t = cnt j - 1 := by
              rw [hm.readyCnt j hnp, hw]; simp
            rw [if_pos rfl, hr]
            have hne : ¬(JStat.released = JStat.waiting) := by simp
            rw [if_neg hne]
            omega
          · omega
        · rw [if_neg hj0, F4 j hj0, hm.readyCnt j hnp]
          omega
      readyLe := by
        intro j hnp
        rw [countReady_append, countNewPhase_append, hcr1 j, hnp1]
        by_cases hj0 : j = h0
        · subst hj0
          have h1 := hm.queuedReadyLt j hhq hnp
          rw [if_pos rfl]
          omega
        · rw [if_neg hj0]
          have h1 := hm.readyLe j hnp
          omega
      queuedReadyLt := by
        intro j hj hnp
        have hj0 : j ≠ h0 := fun he => hh_not_rest (he ▸ hj)
        rw [countReady_append, countNewPhase_append, hcr1 j, hnp1,
          if_neg hj0]
        have h1 := hm.queuedReadyLt j (hrest_sub j hj) hnp
        omega
      lastSnap := by
        obtain ⟨u, s, v, heq, hnv, hrep⟩ := hm.lastSnap
        refine ⟨u, s, v ++ [Act.ready h0], by rw [heq]; simp, ?_, ?_⟩
        · intro x hx
          rcases List.mem_append.mp hx with h1 | h1
          · exact hnv x h1
          · exact absurd (List.mem_singleton.mp h1) (by simp)
        · intro x hx
          rcases hrep x hx with h1 | ⟨k, h1⟩ | h1
          · exact Or.inl h1
          · exact Or.inr (Or.inl ⟨k, List.mem_append.mpr (Or.inl h1)⟩)
          · exact Or.inr (Or.inr (List.mem_append.mpr (Or.inl h1)))
      noDouble := nd_snoc_ready hm.noDouble hG
      barrier := barrier_snoc_nonphase hm.barrier (by intro s; simp)
      phaseGate := pg_snoc hm.phaseGate
        (fun j p he => absurd he (by simp))
      readyGate := rg_snoc hm.readyGate
        (fun j p he => absurd he (by simp))
      settleCnt := by
        intro j hjn
        rw [countSettle_append]
        have h1 : countSettle j [Act.ready h0] = 0 := by
          simp [countSettle, List.countP_cons, isSettleOf]
        rw [h1, Nat.add_zero, hm.settleCnt j hjn]
        by_cases hfd : js j = JStat.finishing ∨ js j = JStat.done
        · rw [if_pos hfd, if_pos ((F8 j).mpr hfd)]
        · rw [if_neg hfd, if_neg (fun hc2 => hfd ((F8 j).mp hc2))]
      settleTag := by
        intro j hjn hj
        exact List.mem_append.mpr (Or.inl (hm.settleTag j hjn ((F8 j).mp hj)))
      jobDoneCnt := by
        intro j hjn
        rw [countJobDone_append]
        have h1 : countJobDone j [Act.ready h0] = 0 := by
          simp [countJobDone, List.countP_cons, isJobDoneOf]
        rw [h1, Nat.add_zero, hm.jobDoneCnt j hjn]
        by_cases hfd : js j = JStat.done
        · rw [if_pos hfd, if_pos ((F9 j).mpr hfd)]
        · rw [if_neg hfd, if_neg (fun hc2 => hfd ((F9 j).mp hc2))] }

/-- What a handler's dispatch establishes, whichever branch runs. -/
theorem dispatch_spec {n c : Nat} {np : Nat → Nat} {oc : Nat → Outcome}
    {co : CoordState} {cnt : Nat → Nat} {js : Nat → JStat} {t : List Act}
    (hm : Mid n c np oc co cnt js t) (hc : 1 ≤ c) :
    Inv n c np oc
      ⟨(dispatch c co).1, cnt, releaseAll js (emittedReadies (dispatch c co).2)⟩
      (t ++ (dispatch c co).2) := by
  by_cases hp : co.phasePendingJobs = []
  · have hd : dispatch c co = (⟨co.jobs, co.jobs.drop c, co.jobs⟩,
        Act.newPhase co.jobs :: (co.jobs.take c).map Act.ready) := by
      simp [dispatch, hp, startNewPhase]
    rw [hd]
    have hem : emittedReadies (Act.newPhase co.jobs ::
        (co.jobs.take c).map Act.ready) = co.jobs.take c := by
      rw [show emittedReadies (Act.newPhase co.jobs ::
          (co.jobs.take c).map Act.ready) =
          emittedReadies ((co.jobs.take c).map Act.ready) from rfl]
      exact emittedReadies_map_ready _
    rw [hem]
    exact newPhase_spec hm hc hp
  · cases hq : co.queuedJobs with
    | nil =>
        have hd : dispatch c co = (co, []) := by
          simp [dispatch, isEmpty_eq_true_iff, hp, startQueuedJob, hq]
        rw [hd]
        rw [show emittedReadies [] = [] from rfl, List.append_nil]
        exact ⟨hm, fun _ => hp, fun hne => absurd hq hne⟩
    | cons h0 rest =>
        have hd : dispatch c co =
            (⟨co.jobs, rest, co.phasePendingJobs⟩, [Act.ready h0]) := by
          simp [dispatch, isEmpty_eq_true_iff, hp, startQueuedJob, hq]
        rw [hd]
        rw [show emittedReadies [Act.ready h0] = [h0] from rfl]
        exact queued_spec hm hp hq

/-- The invariant is preserved by a `phase()` call with positive counter
(`'stepDone'` emission plus the synchronous handler). -/
theorem inv_boundary {n c : Nat} {np : Nat → Nat} {oc : Nat → Outcome}
    {σ : GState} {t : List Act} {j : Nat}
    (hI : Inv n c np oc σ t) (hc : 1 ≤ c)
    (hw : σ.jstat j = JStat.working) (h0 : 0 < σ.cnt j)
    (hn : σ.cnt j < np j) :
    Inv n c np oc
      ⟨(onStepDone c σ.coord j).1, setCnt σ.cnt j (σ.cnt j + 1),
        releaseAll (setStat σ.jstat j JStat.waiting)
          (emittedReadies (onStepDone c σ.coord j).2)⟩
      (t ++ (Act.stepDone j (σ.cnt j) :: (onStepDone c σ.coord j).2)) := by
  obtain ⟨hm, _, _⟩ := hI
  have hnp1 : 1 ≤ np j := by omega
  have hjP : j ∈ σ.coord.phasePendingJobs :=
    hm.inflightPending j (Or.inr (Or.inl hw))
  have hjJ : j ∈ σ.coord.jobs := hm.subPJ j hjP
  have hjW : j ∉ σ.coord.queuedJobs := by
    intro hjq
    have := hm.queuedWaiting j hjq hnp1
    rw [hw] at this
    exact absurd this (by simp)
  have hjs1 : ∀ x, setStat σ.jstat j JStat.waiting x =
      if x = j then JStat.waiting else σ.jstat x := fun x => rfl
  have hcnt1 : ∀ x, setCnt σ.cnt j (σ.cnt j + 1) x =
      if x = j then σ.cnt j + 1 else σ.cnt x := fun x => rfl
  have hr0 : ∀ x, countReady x [Act.stepDone j (σ.cnt j)] = 0 := fun _ => rfl
  have hn0 : countNewPhase [Act.stepDone j (σ.cnt j)] = 0 := rfl
  have hs0 : ∀ x, countSettle x [Act.stepDone j (σ.cnt j)] = 0 := fun _ => rfl
  have hd0 : ∀ x, countJobDone x [Act.stepDone j (σ.cnt j)] = 0 := fun _ => rfl
  have hmid : Mid n c np oc
      ⟨σ.coord.jobs, σ.coord.queuedJobs, σ.coord.phasePendingJobs.erase j⟩
      (setCnt σ.cnt j (σ.cnt j + 1)) (setStat σ.jstat j JStat.waiting)
      (t ++ [Act.stepDone j (σ.cnt j)]) :=
    { nodupJ := hm.nodupJ
      nodupQ := hm.nodupQ
      nodupP := hm.nodupP.erase j
      subPJ := fun x hx => hm.subPJ x (erase_sub hx)
      subQP := by
        intro x hx
        have hxp := hm.subQP x hx
        have hxj : x ≠ j := fun he => hjW (he ▸ hx)
        exact (List.Nodup.mem_erase_iff hm.nodupP).mpr ⟨hxj, hxp⟩
      subJR := hm.subJR
      memIff := by
        intro x
        by_cases hx : x = j
        · subst hx
          rw [hjs1 x, if_pos rfl]
          exact ⟨fun _ => by simp, fun _ => hjJ⟩
        · rw [hjs1 x, if_neg hx]
          exact hm.memIff x
      inflightPending := by
        intro x hx
        rw [hjs1 x] at hx
        by_cases hxj : x = j
        · rw [if_pos hxj] at hx
          rcases hx with h | h | h <;> exact absurd h (by simp)
        · rw [if_neg hxj] at hx
          exact (List.Nodup.mem_erase_iff hm.nodupP).mpr
            ⟨hxj, hm.inflightPending x hx⟩
      waitingQueued := by
        intro x hx hwx
        have hxj : x ≠ j := ((List.Nodup.mem_erase_iff hm.nodupP).mp hx).1
        rw [hjs1 x, if_neg hxj] at hwx
        exact hm.waitingQueued x (erase_sub hx) hwx
      queuedWaiting := by
        intro x hx hnp
        have hxj : x ≠ j := fun he => hjW (he ▸ hx)
        rw [hjs1 x, if_neg hxj]
        exact hm.queuedWaiting x hx hnp
      queuedRep := fun x hx =>
        reported_snoc_other (hm.queuedRep x hx) (by simp)
      waitingRep := by
        intro x hx
        by_cases hxj : x = j
        · subst hxj
          exact reported_snoc_stepDone (σ.cnt x)
        · rw [hjs1 x, if_neg hxj] at hx
          exact reported_snoc_other (hm.waitingRep x hx) (by simp)
      cntLe := by
        intro x
        rw [hcnt1 x]
        by_cases hxj : x = j
        · subst hxj; rw [if_pos rfl]; omega
        · rw [if_neg hxj]; exact hm.cntLe x
      waitingCnt := by
        intro x hwx
        rw [hcnt1 x]
        by_cases hxj : x = j
        · rw [if_pos hxj]; omega
        · rw [if_neg hxj]
          rw [hjs1 x, if_neg hxj] at hwx
          exact hm.waitingCnt x hwx
      activeCnt := by
        intro x hx
        by_cases hxj : x = j
        · subst hxj
          rw [hjs1 x, if_pos rfl] at hx
          rcases hx with h | h <;> exact absurd h (by simp)
        · rw [hjs1 x, if_neg hxj] at hx
          rw [hcnt1 x, if_neg hxj]
          exact hm.activeCnt x hx
      zeroNp := by
        intro x hz hx
        by_cases hxj : x = j
        · subst hxj; omega
        · rw [hjs1 x, if_neg hxj] at hx
          exact hm.zeroNp x hz hx
      readyCnt := by
        intro x hnp
        rw [countReady_append, hr0 x, Nat.add_zero, hjs1 x, hcnt1 x]
        by_cases hxj : x = j
        · subst hxj
          rw [if_pos rfl, if_pos rfl, if_pos rfl]
          have h1 : countReady x t = σ.cnt x := by
            rw [hm.readyCnt x hnp, hw]; simp
          omega
        · rw [if_neg hxj, if_neg hxj]
          exact hm.readyCnt x hnp
      readyLe := by
        intro x hnp
        rw [countReady_append, countNewPhase_append, hr0 x, hn0]
        have := hm.readyLe x hnp
        omega
      queuedReadyLt := by
        intro x hx hnp
        rw [countReady_append, countNewPhase_append, hr0 x, hn0]
        have := hm.queuedReadyLt x hx hnp
        omega
      lastSnap := by
        obtain ⟨u, s, v, heq, hnv, hrep⟩ := hm.lastSnap
        refine ⟨u, s, v ++ [Act.stepDone j (σ.cnt j)], by rw [heq]; simp,
          ?_, ?_⟩
        · intro x hx
          rcases List.mem_append.mp hx with h1 | h1
          · exact hnv x h1
          · exact absurd (List.mem_singleton.mp h1) (by simp)
        · intro x hx
          rcases hrep x hx with h1 | ⟨k, h1⟩ | h1
          · by_cases hxj : x = j
            · subst hxj
              exact Or.inr (Or.inl ⟨σ.cnt x, List.mem_append.mpr
                (Or.inr (List.mem_singleton.mpr rfl))⟩)
            · exact Or.inl ((List.Nodup.mem_erase_iff hm.nodupP).mpr
                ⟨hxj, h1⟩)
          · exact Or.inr (Or.inl ⟨k, List.mem_append.mpr (Or.inl h1)⟩)
          · exact Or.inr (Or.inr (List.mem_append.mpr (Or.inl h1)))
      noDouble := nd_snoc_nonready hm.noDouble (by intro i; simp)
      barrier := barrier_snoc_nonphase hm.barrier (by intro s; simp)
      phaseGate := pg_snoc hm.phaseGate
        (fun i p he => absurd he (by simp))
      readyGate := rg_snoc hm.readyGate
        (fun i p he => absurd he (by simp))
      settleCnt := by
        intro x hxn
        rw [countSettle_append, hs0 x, Nat.add_zero,
          hm.settleCnt x hxn, hjs1 x]
        by_cases hxj : x = j
        · subst hxj
          rw [if_pos rfl, hw]
          simp
        · rw [if_neg hxj]
      settleTag := by
        intro x hxn hx
        by_cases hxj : x = j
        · subst hxj
          rw [hjs1 x, if_pos rfl] at hx
          rcases hx with h | h <;> exact absurd h (by simp)
        · rw [hjs1 x, if_neg hxj] at hx
          exact List.mem_append.mpr (Or.inl (hm.settleTag x hxn hx))
      jobDoneCnt := by
        intro x hxn
        rw [countJobDone_append, hd0 x, Nat.add_zero,
          hm.jobDoneCnt x hxn, hjs1 x]
        by_cases hxj : x = j
        · subst hxj
          rw [if_pos rfl, hw]
          simp
        · rw [if_neg hxj] }
  have hres := dispatch_spec hmid hc
  rw [List.append_cons]
  exact hres

/-- The invariant is preserved by the `p-finally` callback firing
(`'jobDone'` emission plus the synchronous handler). -/
theorem inv_jobDone {n c : Nat} {np : Nat → Nat} {oc : Nat → Outcome}
    {σ : GState} {t : List Act} {j : Nat}
    (hI : Inv n c np oc σ t) (hc : 1 ≤ c)
    (hf : σ.jstat j = JStat.finishing) :
    Inv n c np oc
      ⟨(onJobDone c σ.coord j).1, σ.cnt,
        releaseAll (setStat σ.jstat j JStat.done)
          (emittedReadies (onJobDone c σ.coord j).2)⟩
      (t ++ (Act.jobDone j :: (onJobDone c σ.coord j).2)) := by
  obtain ⟨hm, _, _⟩ := hI
  have hjP : j ∈ σ.coord.phasePendingJobs :=
    hm.inflightPending j (Or.inr (Or.inr hf))
  have hjJ : j ∈ σ.coord.jobs := hm.subPJ j hjP
  have hjn : j < n := List.mem_range.mp (hm.subJR.subset hjJ)
  have hjs1 : ∀ x, setStat σ.jstat j JStat.done x =
      if x = j then JStat.done else σ.jstat x := fun x => rfl
  have hr0 : ∀ x, countReady x [Act.jobDone j] = 0 := fun _ => rfl
  have hn0 : countNewPhase [Act.jobDone j] = 0 := rfl
  have hs0 : ∀ x, countSettle x [Act.jobDone j] = 0 := fun _ => rfl
  have hd1 : ∀ x, countJobDone x [Act.jobDone j] =
      if x = j then 1 else 0 := by
    intro x
    by_cases hx : x = j
    · subst hx; simp [countJobDone, List.countP_cons, isJobDoneOf]
    · simp [countJobDone, List.countP_cons, isJobDoneOf, Ne.symm hx, hx]
  have hmid : Mid n c np oc
      ⟨σ.coord.jobs.erase j, σ.coord.queuedJobs.erase j,
        σ.coord.phasePendingJobs.erase j⟩
      σ.cnt (setStat σ.jstat j JStat.done)
      (t ++ [Act.jobDone j]) :=
    { nodupJ := hm.nodupJ.erase j
      nodupQ := hm.nodupQ.erase j
      nodupP := hm.nodupP.erase j
      subPJ := by
        intro x hx
        obtain ⟨hxj, hxp⟩ := (List.Nodup.mem_erase_iff hm.nodupP).mp hx
        exact (List.Nodup.mem_erase_iff hm.nodupJ).mpr ⟨hxj, hm.subPJ x hxp⟩
      subQP := by
        intro x hx
        obtain ⟨hxj, hxq⟩ := (List.Nodup.mem_erase_iff hm.nodupQ).mp hx
        exact (List.Nodup.mem_erase_iff hm.nodupP).mpr ⟨hxj, hm.subQP x hxq⟩
      subJR := (List.erase_sublist j σ.coord.jobs).trans hm.subJR
      memIff := by
        intro x
        by_cases hx : x = j
        · subst hx
          rw [hjs1 x, if_pos rfl]
          constructor
          · intro hmem
            exact absurd ((List.Nodup.mem_erase_iff hm.nodupJ).mp hmem).1
              (by simp)
          · intro hne; exact absurd rfl hne
        · rw [hjs1 x, if_neg hx]
          rw [List.Nodup.mem_erase_iff hm.nodupJ]
          constructor
          · intro h1; exact (hm.memIff x).mp h1.2
          · intro h1; exact ⟨hx, (hm.memIff x).mpr h1⟩
      inflightPending := by
        intro x hx
        by_cases hxj : x = j
        · subst hxj
          rw [hjs1 x, if_pos rfl] at hx
          rcases hx with h | h | h <;> exact absurd h (by simp)
        · rw [hjs1 x, if_neg hxj] at hx
          exact (List.Nodup.mem_erase_iff hm.nodupP).mpr
            ⟨hxj, hm.inflightPending x hx⟩
      waitingQueued := by
        intro x hx hwx
        have hxj : x ≠ j := ((List.Nodup.mem_erase_iff hm.nodupP).mp hx).1
        rw [hjs1 x, if_neg hxj] at hwx
        exact (List.Nodup.mem_erase_iff hm.nodupQ).mpr
          ⟨hxj, hm.waitingQueued x (erase_sub hx) hwx⟩
      queuedWaiting := by
        intro x hx hnp
        have hxj : x ≠ j := ((List.Nodup.mem_erase_iff hm.nodupQ).mp hx).1
        rw [hjs1 x, if_neg hxj]
        exact hm.queuedWaiting x (erase_sub hx) hnp
      queuedRep := fun x hx =>
        reported_snoc_other (hm.queuedRep x (erase_sub hx)) (by simp)
      waitingRep := by
        intro x hx
        by_cases hxj : x = j
        · subst hxj
          exact reported_snoc_jobDone
        · rw [hjs1 x, if_neg hxj] at hx
          exact reported_snoc_other (hm.waitingRep x hx) (by simp)
      cntLe := hm.cntLe
      waitingCnt := by
        intro x hwx
        by_cases hxj : x = j
        · subst hxj
          rw [hjs1 x, if_pos rfl] at hwx
          exact absurd hwx (by simp)
        · rw [hjs1 x, if_neg hxj] at hwx
          exact hm.waitingCnt x hwx
      activeCnt := by
        intro x hx
        by_cases hxj : x = j
        · subst hxj
          rw [hjs1 x, if_pos rfl] at hx
          rcases hx with h | h <;> exact absurd h (by simp)
        · rw [hjs1 x, if_neg hxj] at hx
          exact hm.activeCnt x hx
      zeroNp := by
        intro x hz hx
        by_cases hxj : x = j
        · subst hxj
          rw [hjs1 x, if_pos rfl] at hx
          exact absurd hx (by simp)
        · rw [hjs1 x, if_neg hxj] at hx
          exact hm.zeroNp x hz hx
      readyCnt := by
        intro x hnp
        rw [countReady_append, hr0 x, Nat.add_zero, hjs1 x]
        by_cases hxj : x = j
        · subst hxj
          rw [if_pos rfl]
          have h1 : countReady x t = σ.cnt x := by
            rw [hm.readyCnt x hnp, hf]; simp
          rw [h1]
          simp
        · rw [if_neg hxj]
          exact hm.readyCnt x hnp
      readyLe := by
        intro x hnp
        rw [countReady_append, countNewPhase_append, hr0 x, hn0]
        have := hm.readyLe x hnp
        omega
      queuedReadyLt := by
        intro x hx hnp
        rw [countReady_append, countNewPhase_append, hr0 x, hn0]
        have := hm.queuedReadyLt x (erase_sub hx) hnp
        omega
      lastSnap := by
        obtain ⟨u, s, v, heq, hnv, hrep⟩ := hm.lastSnap
        refine ⟨u, s, v ++ [Act.jobDone j], by rw [heq]; simp, ?_, ?_⟩
        · intro x hx
          rcases List.mem_append.mp hx with h1 | h1
          · exact hnv x h1
          · exact absurd (List.mem_singleton.mp h1) (by simp)
        · intro x hx
          rcases hrep x hx with h1 | ⟨k, h1⟩ | h1
          · by_cases hxj : x = j
            · subst hxj
              exact Or.inr (Or.inr (List.mem_append.mpr
                (Or.inr (List.mem_singleton.mpr rfl))))
            · exact Or.inl ((List.Nodup.mem_erase_iff hm.nodupP).mpr
                ⟨hxj, h1⟩)
          · exact Or.inr (Or.inl ⟨k, List.mem_append.mpr (Or.inl h1)⟩)
          · exact Or.inr (Or.inr (List.mem_append.mpr (Or.inl h1)))
      noDouble := nd_snoc_nonready hm.noDouble (by intro i; simp)
      barrier := barrier_snoc_nonphase hm.barrier (by intro s; simp)
      phaseGate := pg_snoc hm.phaseGate
        (fun i p he => absurd he (by simp))
      readyGate := rg_snoc hm.readyGate
        (fun i p he => absurd he (by simp))
      settleCnt := by
        intro x hxn
        rw [countSettle_append, hs0 x, Nat.add_zero,
          hm.settleCnt x hxn, hjs1 x]
        by_cases hxj : x = j
        · subst hxj
          rw [if_pos rfl, hf]
          simp
        · rw [if_neg hxj]
      settleTag := by
        intro x hxn hx
        by_cases hxj : x = j
        · subst hxj
          exact List.mem_append.mpr
            (Or.inl (hm.settleTag x hxn (Or.inl hf)))
        · rw [hjs1 x, if_neg hxj] at hx
          exact List.mem_append.mpr (Or.inl (hm.settleTag x hxn hx))
      jobDoneCnt := by
        intro x hxn
        rw [countJobDone_append, hd1 x, hm.jobDoneCnt x hxn, hjs1 x]
        by_cases hxj : x = j
        · subst hxj
          rw [if_pos rfl, if_pos rfl, hf]
          simp
        · rw [if_neg hxj, if_neg hxj, Nat.add_zero] }
  have hres := dispatch_spec hmid hc
  rw [List.append_cons]
  exact hres

/-- The invariant is preserved by a released job's resumption microtask. -/
theorem inv_resume {n c : Nat} {np : Nat → Nat} {oc : Nat → Outcome}
    {σ : GState} {t : List Act} {j : Nat}
    (hI : Inv n c np oc σ t) (hr : σ.jstat j = JStat.released) :
    Inv n c np oc ⟨σ.coord, σ.cnt, setStat σ.jstat j JStat.working⟩
      (t ++ [Act.beginWork j (σ.cnt j - 1)]) := by
  obtain ⟨hm, hpNE, hqIn⟩ := hI
  have hnz : np j ≠ 0 := fun hz => hm.zeroNp j hz hr
  have hnp1 : 1 ≤ np j := by omega
  have hcnt1 : 1 ≤ σ.cnt j := by
    rcases hm.activeCnt j (Or.inl hr) with h | h
    · exact h
    · exact absurd h hnz
  have hrc : countReady j t = σ.cnt j := by
    rw [hm.readyCnt j hnp1, hr]; simp
  have hjP : j ∈ σ.coord.phasePendingJobs :=
    hm.inflightPending j (Or.inl hr)
  have hjs1 : ∀ x, setStat σ.jstat j JStat.working x =
      if x = j then JStat.working else σ.jstat x := fun x => rfl
  have hr0 : ∀ x, countReady x [Act.beginWork j (σ.cnt j - 1)] = 0 :=
    fun _ => rfl
  have hn0 : countNewPhase [Act.beginWork j (σ.cnt j - 1)] = 0 := rfl
  have hs0 : ∀ x, countSettle x [Act.beginWork j (σ.cnt j - 1)] = 0 :=
    fun _ => rfl
  have hd0 : ∀ x, countJobDone x [Act.beginWork j (σ.cnt j - 1)] = 0 :=
    fun _ => rfl
  show Mid n c np oc σ.coord σ.cnt (setStat σ.jstat j JStat.working)
      (t ++ [Act.beginWork j (σ.cnt j - 1)]) ∧
    (σ.coord.jobs ≠ [] → σ.coord.phasePendingJobs ≠ []) ∧
    (σ.coord.queuedJobs ≠ [] → ∃ i,
      setStat σ.jstat j JStat.working i = JStat.released ∨
      setStat σ.jstat j JStat.working i = JStat.working ∨
      setStat σ.jstat j JStat.working i = JStat.finishing)
  refine ⟨?_, hpNE,
    fun _ => ⟨j, Or.inr (Or.inl (by simp [setStat]))⟩⟩
  exact
    { nodupJ := hm.nodupJ
      nodupQ := hm.nodupQ
      nodupP := hm.nodupP
      subPJ := hm.subPJ
      subQP := hm.subQP
      subJR := hm.subJR
      memIff := by
        intro x
        by_cases hxj : x = j
        · subst hxj
          rw [hjs1 x, if_pos rfl]
          refine ⟨fun _ => by simp, fun _ => ?_⟩
          exact (hm.memIff x).mpr (by rw [hr]; simp)
        · rw [hjs1 x, if_neg hxj]; exact hm.memIff x
      inflightPending := by
        intro x hx
        by_cases hxj : x = j
        · subst hxj; exact hjP
        · rw [hjs1 x, if_neg hxj] at hx
          exact hm.inflightPending x hx
      waitingQueued := by
        intro x hx hwx
        have hxj : x ≠ j := by
          intro he
          rw [hjs1 x, if_pos he] at hwx
          exact absurd hwx (by simp)
        rw [hjs1 x, if_neg hxj] at hwx
        exact hm.waitingQueued x hx hwx
      queuedWaiting := by
        intro x hx hnp
        by_cases hxj : x = j
        · subst hxj
          have := hm.queuedWaiting x hx hnp
          rw [hr] at this
          exact absurd this (by simp)
        · rw [hjs1 x, if_neg hxj]
          exact hm.queuedWaiting x hx hnp
      queuedRep := fun x hx =>
        reported_snoc_other (hm.queuedRep x hx) (by simp)
      waitingRep := by
        intro x hx
        by_cases hxj : x = j
        · subst hxj
          rw [hjs1 x, if_pos rfl] at hx
          rcases hx with h | h <;> exact absurd h (by simp)
        · rw [hjs1 x, if_neg hxj] at hx
          exact reported_snoc_other (hm.waitingRep x hx) (by simp)
      cntLe := hm.cntLe
      waitingCnt := by
        intro x hwx
        by_cases hxj : x = j
        · subst hxj
          rw [hjs1 x, if_pos rfl] at hwx
          exact absurd hwx (by simp)
        · rw [hjs1 x, if_neg hxj] at hwx
          exact hm.waitingCnt x hwx
      activeCnt := by
        intro x hx
        by_cases hxj : x = j
        · subst hxj; exact Or.inl hcnt1
        · rw [hjs1 x, if_neg hxj] at hx
          exact hm.activeCnt x hx
      zeroNp := by
        intro x hz hx
        by_cases hxj : x = j
        · subst hxj; exact hnz hz
        · rw [hjs1 x, if_neg hxj] at hx
          exact hm.zeroNp x hz hx
      readyCnt := by
        intro x hnp
        rw [countReady_append, hr0 x, Nat.add_zero, hjs1 x]
        by_cases hxj : x = j
        · subst hxj
          rw [if_pos rfl]
          rw [hm.readyCnt x hnp, hr]
          simp
        · rw [if_neg hxj]
          exact hm.readyCnt x hnp
      readyLe := by
        intro x hnp
        rw [countReady_append, countNewPhase_append, hr0 x, hn0]
        have := hm.readyLe x hnp
        omega
      queuedReadyLt := by
        intro x hx hnp
        rw [countReady_append, countNewPhase_append, hr0 x, hn0]
        have := hm.queuedReadyLt x hx hnp
        omega
      lastSnap := by
        obtain ⟨u, s, v, heq, hnv, hrep⟩ := hm.lastSnap
        refine ⟨u, s, v ++ [Act.beginWork j (σ.cnt j - 1)],
          by rw [heq]; simp, ?_, ?_⟩
        · intro x hx
          rcases List.mem_append.mp hx with h1 | h1
          · exact hnv x h1
          · exact absurd (List.mem_singleton.mp h1) (by simp)
        · intro x hx
          rcases hrep x hx with h1 | ⟨k, h1⟩ | h1
          · exact Or.inl h1
          · exact Or.inr (Or.inl ⟨k, List.mem_append.mpr (Or.inl h1)⟩)
          · exact Or.inr (Or.inr (List.mem_append.mpr (Or.inl h1)))
      noDouble := nd_snoc_nonready hm.noDouble (by intro i; simp)
      barrier := barrier_snoc_nonphase hm.barrier (by intro s; simp)
      phaseGate := by
        refine pg_snoc hm.phaseGate ?_
        intro i p he hp1
        have hij : j = i := by injection he
        have hpe : σ.cnt j - 1 = p := by injection he
        subst hij
        have := hm.readyLe j hnp1
        omega
      readyGate := by
        refine rg_snoc hm.readyGate ?_
        intro i p he _
        have hij : j = i := by injection he
        subst hij
        exact ready_mem_iff_countReady.mpr (by omega)
      settleCnt := by
        intro x hxn
        rw [countSettle_append, hs0 x, Nat.add_zero,
          hm.settleCnt x hxn, hjs1 x]
        by_cases hxj : x = j
        · subst hxj
          rw [if_pos rfl, hr]
          simp
        · rw [if_neg hxj]
      settleTag := by
        intro x hxn hx
        by_cases hxj : x = j
        · subst hxj
          rw [hjs1 x, if_pos rfl] at hx
          rcases hx with h | h <;> exact absurd h (by simp)
        · rw [hjs1 x, if_neg hxj] at hx
          exact List.mem_append.mpr (Or.inl (hm.settleTag x hxn hx))
      jobDoneCnt := by
        intro x hxn
        rw [countJobDone_append, hd0 x, Nat.add_zero,
          hm.jobDoneCnt x hxn, hjs1 x]
        by_cases hxj : x = j
        · subst hxj
          rw [if_pos rfl, hr]
          simp
        · rw [if_neg hxj] }

/-- The invariant is preserved by a job's promise settling. -/
theorem inv_settle {n c : Nat} {np : Nat → Nat} {oc : Nat → Outcome}
    {σ : GState} {t : List Act} {j : Nat}
    (hI : Inv n c np oc σ t) (hw : σ.jstat j = JStat.working)
    (hcn : σ.cnt j = np j) :
    Inv n c np oc ⟨σ.coord, σ.cnt, setStat σ.jstat j JStat.finishing⟩
      (t ++ [Act.settle j (oc j)]) := by
  obtain ⟨hm, hpNE, hqIn⟩ := hI
  have hjP : j ∈ σ.coord.phasePendingJobs :=
    hm.inflightPending j (Or.inr (Or.inl hw))
  have hjJ : j ∈ σ.coord.jobs := hm.subPJ j hjP
  have hjn : j < n := List.mem_range.mp (hm.subJR.subset hjJ)
  have hjs1 : ∀ x, setStat σ.jstat j JStat.finishing x =
      if x = j then JStat.finishing else σ.jstat x := fun x => rfl
  have hr0 : ∀ x, countReady x [Act.settle j (oc j)] = 0 := fun _ => rfl
  have hn0 : countNewPhase [Act.settle j (oc j)] = 0 := rfl
  have hd0 : ∀ x, countJobDone x [Act.settle j (oc j)] = 0 := fun _ => rfl
  have hs1 : ∀ x, countSettle x [Act.settle j (oc j)] =
      if x = j then 1 else 0 := by
    intro x
    by_cases hx : x = j
    · subst hx; simp [countSettle, List.countP_cons, isSettleOf]
    · simp [countSettle, List.countP_cons, isSettleOf, Ne.symm hx, hx]
  show Mid n c np oc σ.coord σ.cnt (setStat σ.jstat j JStat.finishing)
      (t ++ [Act.settle j (oc j)]) ∧
    (σ.coord.jobs ≠ [] → σ.coord.phasePendingJobs ≠ []) ∧
    (σ.coord.queuedJobs ≠ [] → ∃ i,
      setStat σ.jstat j JStat.finishing i = JStat.released ∨
      setStat σ.jstat j JStat.finishing i = JStat.working ∨
      setStat σ.jstat j JStat.finishing i = JStat.finishing)
  refine ⟨?_, hpNE,
    fun _ => ⟨j, Or.inr (Or.inr (by simp [setStat]))⟩⟩
  exact
    { nodupJ := hm.nodupJ
      nodupQ := hm.nodupQ
      nodupP := hm.nodupP
      subPJ := hm.subPJ
      subQP := hm.subQP
      subJR := hm.subJR
      memIff := by
        intro x
        by_cases hxj : x = j
        · subst hxj
          rw [hjs1 x, if_pos rfl]
          exact ⟨fun _ => by simp, fun _ => hjJ⟩
        · rw [hjs1 x, if_neg hxj]; exact hm.memIff x
      inflightPending := by
        intro x hx
        by_cases hxj : x = j
        · subst hxj; exact hjP
        · rw [hjs1 x, if_neg hxj] at hx
          exact hm.inflightPending x hx
      waitingQueued := by
        intro x hx hwx
        have hxj : x ≠ j := by
          intro he
          rw [hjs1 x, if_pos he] at hwx
          exact absurd hwx (by simp)
        rw [hjs1 x, if_neg hxj] at hwx
        exact hm.waitingQueued x hx hwx
      queuedWaiting := by
        intro x hx hnp
        by_cases hxj : x = j
        · subst hxj
          have := hm.queuedWaiting x hx hnp
          rw [hw] at this
          exact absurd this (by simp)
        · rw [hjs1 x, if_neg hxj]
          exact hm.queuedWaiting x hx hnp
      queuedRep := fun x hx =>
        reported_snoc_other (hm.queuedRep x hx) (by simp)
      waitingRep := by
        intro x hx
        by_cases hxj : x = j
        · subst hxj
          rw [hjs1 x, if_pos rfl] at hx
          rcases hx with h | h <;> exact absurd h (by simp)
        · rw [hjs1 x, if_neg hxj] at hx
          exact reported_snoc_other (hm.waitingRep x hx) (by simp)
      cntLe := hm.cntLe
      waitingCnt := by
        intro x hwx
        by_cases hxj : x = j
        · subst hxj
          rw [hjs1 x, if_pos rfl] at hwx
          exact absurd hwx (by simp)
        · rw [hjs1 x, if_neg hxj] at hwx
          exact hm.waitingCnt x hwx
      activeCnt := by
        intro x hx
        by_cases hxj : x = j
        · subst hxj
          rw [hjs1 x, if_pos rfl] at hx
          rcases hx with h | h <;> exact absurd h (by simp)
        · rw [hjs1 x, if_neg hxj] at hx
          exact hm.activeCnt x hx
      zeroNp := by
        intro x hz hx
        by_cases hxj : x = j
        · subst hxj
          rw [hjs1 x, if_pos rfl] at hx
          exact absurd hx (by simp)
        · rw [hjs1 x, if_neg hxj] at hx
          exact hm.zeroNp x hz hx
      readyCnt := by
        intro x hnp
        rw [countReady_append, hr0 x, Nat.add_zero, hjs1 x]
        by_cases hxj : x = j
        · subst hxj
          rw [if_pos rfl]
          rw [hm.readyCnt x hnp, hw]
          simp
        · rw [if_neg hxj]
          exact hm.readyCnt x hnp
      readyLe := by
        intro x hnp
        rw [countReady_append, countNewPhase_append, hr0 x, hn0]
        have := hm.readyLe x hnp
        omega
      queuedReadyLt := by
        intro x hx hnp
        rw [countReady_append, countNewPhase_append, hr0 x, hn0]
        have := hm.queuedReadyLt x hx hnp
        omega
      lastSnap := by
        obtain ⟨u, s, v, heq, hnv, hrep⟩ := hm.lastSnap
        refine ⟨u, s, v ++ [Act.settle j (oc j)], by rw [heq]; simp, ?_, ?_⟩
        · intro x hx
          rcases List.mem_append.mp hx with h1 | h1
          · exact hnv x h1
          · exact absurd (List.mem_singleton.mp h1) (by simp)
        · intro x hx
          rcases hrep x hx with h1 | ⟨k, h1⟩ | h1
          · exact Or.inl h1
          · exact Or.inr (Or.inl ⟨k, List.mem_append.mpr (Or.inl h1)⟩)
          · exact Or.inr (Or.inr (List.mem_append.mpr (Or.inl h1)))
      noDouble := nd_snoc_nonready hm.noDouble (by intro i; simp)
      barrier := barrier_snoc_nonphase hm.barrier (by intro s; simp)
      phaseGate := pg_snoc hm.phaseGate
        (fun i p he => absurd he (by simp))
      readyGate := rg_snoc hm.readyGate
        (fun i p he => absurd he (by simp))
      settleCnt := by
        intro x hxn
        rw [countSettle_append, hs1 x, hm.settleCnt x hxn, hjs1 x]
        by_cases hxj : x = j
        · subst hxj
          rw [if_pos rfl, if_pos rfl, hw]
          simp
        · rw [if_neg hxj, if_neg hxj, Nat.add_zero]
      settleTag := by
        intro x hxn hx
        by_cases hxj : x = j
        · subst hxj
          exact List.mem_append.mpr (Or.inr (List.mem_singleton.mpr rfl))
        · rw [hjs1 x, if_neg hxj] at hx
          exact List.mem_append.mpr (Or.inl (hm.settleTag x hxn hx))
      jobDoneCnt := by
        intro x hxn
        rw [countJobDone_append, hd0 x, Nat.add_zero,
          hm.jobDoneCnt x hxn, hjs1 x]
        by_cases hxj : x = j
        · subst hxj
          rw [if_pos rfl, hw]
          simp
        · rw [if_neg hxj] }

/-- A `phase()` call with counter `0` can only be the constructor-time
first call: inside a run it contradicts the invariant. -/
theorem inv_boundaryFirst {n c : Nat} {np : Nat → Nat} {oc : Nat → Outcome}
    {σ : GState} {t : List Act} {j : Nat}
    (hI : Inv n c np oc σ t) (hw : σ.jstat j = JStat.working)
    (h0 : σ.cnt j = 0) (hn : σ.cnt j < np j) :
    Inv n c np oc
      ⟨σ.coord, setCnt σ.cnt j (σ.cnt j + 1), setStat σ.jstat j JStat.waiting⟩
      t := by
  exfalso
  obtain ⟨hm, _, _⟩ := hI
  rcases hm.activeCnt j (Or.inr hw) with h | h <;> omega

theorem emittedReadies_cons_newPhase (s : List Nat) (l : List Act) :
    emittedReadies (Act.newPhase s :: l) = emittedReadies l := rfl

theorem initState_eq (n c : Nat) (np : Nat → Nat) :
    initState n c np =
      ⟨⟨List.range n, (List.range n).drop c, List.range n⟩, initCnt n np,
        releaseAll (initJstat n np) ((List.range n).take c)⟩ := by
  show (⟨(startNewPhase c (CoordState.mk (List.range n) [] [])).1,
      initCnt n np,
      releaseAll (initJstat n np)
        (emittedReadies
          (startNewPhase c (CoordState.mk (List.range n) [] [])).2)⟩ :
      GState) = _
  rw [show (startNewPhase c (CoordState.mk (List.range n) [] [])).2 =
      Act.newPhase (List.range n) ::
        ((List.range n).take c).map Act.ready from rfl,
    emittedReadies_cons_newPhase, emittedReadies_map_ready]
  rfl

/-- The invariant holds after the synchronous module body. -/
theorem inv_init {n c : Nat} {np : Nat → Nat} {oc : Nat → Outcome}
    (hc : 1 ≤ c) :
    Inv n c np oc (initState n c np) (initTrace n c np) := by
  rw [initState_eq]
  show Inv n c np oc _
    (((List.range n).map (invokeActs np)).flatten ++
      (Act.newPhase (List.range n) :: ((List.range n).take c).map Act.ready))
  have hndR : (List.range n).Nodup := List.nodup_range n
  have hTsub : ∀ x ∈ (List.range n).take c, x ∈ List.range n :=
    fun x hx => List.take_subset c _ hx
  have hTnd : ((List.range n).take c).Nodup :=
    (List.take_sublist c _).nodup hndR
  have hDnd : ((List.range n).drop c).Nodup :=
    (List.drop_sublist c _).nodup hndR
  have hTD : ∀ x ∈ (List.range n).take c, x ∉ (List.range n).drop c :=
    fun x hx hd => List.disjoint_take_drop hndR (le_refl c) hx hd
  have hDsub : ∀ x ∈ (List.range n).drop c, x ∈ List.range n :=
    fun x hx => List.drop_subset c _ hx
  have hsplit : ∀ x ∈ List.range n, x ∉ (List.range n).take c →
      x ∈ (List.range n).drop c := by
    intro x hx hnt
    have := List.take_append_drop c (List.range n)
    rcases List.mem_append.mp (this ▸ hx) with h1 | h1
    · exact absurd h1 hnt
    · exact h1
  have hmemI : ∀ a ∈ ((List.range n).map (invokeActs np)).flatten,
      (∃ i, a = Act.invoke i) ∨
      (∃ i, np i = 0 ∧ a = Act.beginWork i 0) := by
    intro a ha
    obtain ⟨l, hl, hal⟩ := List.mem_flatten.mp ha
    obtain ⟨i, _, hli⟩ := List.mem_map.mp hl
    rw [← hli] at hal
    unfold invokeActs at hal
    rcases List.mem_cons.mp hal with h1 | h1
    · exact Or.inl ⟨i, h1⟩
    · by_cases hz : np i = 0
      · rw [if_pos hz] at h1
        exact Or.inr ⟨i, hz, List.mem_singleton.mp h1⟩
      · rw [if_neg hz] at h1
        exact absurd h1 (List.not_mem_nil a)
  have hcntI : ∀ p : Act → Bool, (∀ i, p (Act.invoke i) = false) →
      (∀ i q, p (Act.beginWork i q) = false) →
      ((List.range n).map (invokeActs np)).flatten.countP p = 0 := by
    intro p h1 h2
    rw [List.countP_eq_zero]
    intro a ha
    rcases hmemI a ha with ⟨i, he⟩ | ⟨i, _, he⟩
    · rw [he, h1 i]; simp
    · rw [he, h2 i 0]; simp
  have hcbB : ∀ x, countReady x (Act.newPhase (List.range n) ::
      ((List.range n).take c).map Act.ready) =
      if x ∈ (List.range n).take c then 1 else 0 := by
    intro x
    have h1 : countReady x (Act.newPhase (List.range n) ::
        ((List.range n).take c).map Act.ready) =
        countReady x (((List.range n).take c).map Act.ready) := rfl
    rw [h1, countReady_map_ready, count_nodup hTnd]
  have hIready : ∀ x,
      countReady x (((List.range n).map (invokeActs np)).flatten) = 0 :=
    fun x => hcntI (isReadyFor x) (fun i => rfl) (fun i q => rfl)
  have hInp :
      countNewPhase (((List.range n).map (invokeActs np)).flatten) = 0 :=
    hcntI isNewPhaseAct (fun i => rfl) (fun i q => rfl)
  have hIsettle : ∀ x,
      countSettle x (((List.range n).map (invokeActs np)).flatten) = 0 :=
    fun x => hcntI (isSettleOf x) (fun i => rfl) (fun i q => rfl)
  have hIjd : ∀ x,
      countJobDone x (((List.range n).map (invokeActs np)).flatten) = 0 :=
    fun x => hcntI (isJobDoneOf x) (fun i => rfl) (fun i q => rfl)
  have hcnpB : countNewPhase (Act.newPhase (List.range n) ::
      ((List.range n).take c).map Act.ready) = 1 := by
    unfold countNewPhase
    rw [List.countP_cons, countP_map_ready_zero isNewPhaseAct (fun j => rfl)]
    rfl
  have hBzero : ∀ (p : Act → Bool), (∀ i, p (Act.ready i) = false) →
      p (Act.newPhase (List.range n)) = false →
      (Act.newPhase (List.range n) ::
        ((List.range n).take c).map Act.ready).countP p = 0 := by
    intro p h1 h2
    rw [List.countP_cons, countP_map_ready_zero p h1, h2]
    rfl
  have hcr : ∀ x, countReady x
      (((List.range n).map (invokeActs np)).flatten ++
        (Act.newPhase (List.range n) ::
          ((List.range n).take c).map Act.ready)) =
      if x ∈ (List.range n).take c then 1 else 0 := by
    intro x
    rw [countReady_append, hIready x, Nat.zero_add, hcbB x]
  have hcnp : countNewPhase
      (((List.range n).map (invokeActs np)).flatten ++
        (Act.newPhase (List.range n) ::
          ((List.range n).take c).map Act.ready)) = 1 := by
    rw [countNewPhase_append, hInp, Nat.zero_add, hcnpB]
  have hjsI : ∀ j, releaseAll (initJstat n np) ((List.range n).take c) j =
      if j ∈ (List.range n).take c ∧ initJstat n np j = JStat.waiting
      then JStat.released else initJstat n np j :=
    fun j => releaseAll_apply _ _ j
  have hstat : ∀ j,
      (j < n ∧ np j = 0 ∧
        releaseAll (initJstat n np) ((List.range n).take c) j =
          JStat.working ∧ initCnt n np j = 0) ∨
      (j < n ∧ np j ≠ 0 ∧ j ∈ (List.range n).take c ∧
        releaseAll (initJstat n np) ((List.range n).take c) j =
          JStat.released ∧ initCnt n np j = 1) ∨
      (j < n ∧ np j ≠ 0 ∧ j ∉ (List.range n).take c ∧
        releaseAll (initJstat n np) ((List.range n).take c) j =
          JStat.waiting ∧ initCnt n np j = 1) ∨
      (¬ j < n ∧
        releaseAll (initJstat n np) ((List.range n).take c) j =
          JStat.done ∧ initCnt n np j = 0) := by
    intro j
    by_cases hjn : j < n
    · by_cases hz : np j = 0
      · refine Or.inl ⟨hjn, hz, ?_, ?_⟩
        · rw [hjsI j]
          simp [initJstat, hjn, hz]
        · simp [initCnt, hz]
      · by_cases hT : j ∈ (List.range n).take c
        · refine Or.inr (Or.inl ⟨hjn, hz, hT, ?_, ?_⟩)
          · rw [hjsI j]
            simp [initJstat, hjn, hz, hT]
          · simp [initCnt, hjn, hz]
        · refine Or.inr (Or.inr (Or.inl ⟨hjn, hz, hT, ?_, ?_⟩))
          · rw [hjsI j]
            simp [initJstat, hjn, hz, hT]
          · simp [initCnt, hjn, hz]
    · refine Or.inr (Or.inr (Or.inr ⟨hjn, ?_, ?_⟩))
      · rw [hjsI j]
        simp [initJstat, hjn]
      · simp [initCnt, hjn]
  have hTn : ∀ j ∈ (List.range n).take c, j < n :=
    fun j hj => List.mem_range.mp (hTsub j hj)
  have hnotmem : ∀ j, ¬ j < n → j ∉ (List.range n).take c :=
    fun j hjn hT => hjn (hTn j hT)
  have hwne : ∀ j,
      releaseAll (initJstat n np) ((List.range n).take c) j =
        JStat.waiting → j ∉ (List.range n).take c ∧ j < n ∧ np j ≠ 0 ∧
        initCnt n np j = 1 := by
    intro j hw
    rcases hstat j with ⟨_, _, h, _⟩ | ⟨_, _, _, h, _⟩ |
      ⟨h1, h2, h3, h4, h5⟩ | ⟨_, h, _⟩
    · rw [h] at hw; exact absurd hw (by simp)
    · rw [h] at hw; exact absurd hw (by simp)
    · exact ⟨h3, h1, h2, h5⟩
    · rw [h] at hw; exact absurd hw (by simp)
  have hnoreadyInit : ∀ j, j ∉ (List.range n).take c →
      Act.ready j ∉ (((List.range n).map (invokeActs np)).flatten ++
        (Act.newPhase (List.range n) ::
          ((List.range n).take c).map Act.ready)) := by
    intro j hj hmem
    have h1 := ready_mem_iff_countReady.mp hmem
    rw [hcr j, if_neg hj] at h1
    omega
  show Mid n c np oc
      ⟨List.range n, (List.range n).drop c, List.range n⟩
      (initCnt n np) (releaseAll (initJstat n np) ((List.range n).take c))
      (((List.range n).map (invokeActs np)).flatten ++
        (Act.newPhase (List.range n) ::
          ((List.range n).take c).map Act.ready)) ∧
    (List.range n ≠ [] → List.range n ≠ []) ∧
    ((List.range n).drop c ≠ [] → ∃ j,
      releaseAll (initJstat n np) ((List.range n).take c) j =
        JStat.released ∨
      releaseAll (initJstat n np) ((List.range n).take c) j =
        JStat.working ∨
      releaseAll (initJstat n np) ((List.range n).take c) j =
        JStat.finishing)
  refine ⟨?_, fun h => h, ?_⟩
  · exact
      { nodupJ := hndR
        nodupQ := hDnd
        nodupP := hndR
        subPJ := fun x hx => hx
        subQP := hDsub
        subJR := List.Sublist.refl _
        memIff := by
          intro j
          rcases hstat j with ⟨h1, _, h3, _⟩ | ⟨h1, _, _, h3, _⟩ |
            ⟨h1, _, _, h3, _⟩ | ⟨h1, h3, _⟩
          · rw [h3]
            exact ⟨fun _ => by simp, fun _ => List.mem_range.mpr h1⟩
          · rw [h3]
            exact ⟨fun _ => by simp, fun _ => List.mem_range.mpr h1⟩
          · rw [h3]
            exact ⟨fun _ => by simp, fun _ => List.mem_range.mpr h1⟩
          · rw [h3]
            constructor
            · intro hmem
              exact absurd (List.mem_range.mp hmem) h1
            · intro hne; exact absurd rfl hne
        inflightPending := by
          intro j hj
          rcases hstat j with ⟨h1, _, _, _⟩ | ⟨h1, _, _, _, _⟩ |
            ⟨h1, _, _, h3, _⟩ | ⟨_, h3, _⟩
          · exact List.mem_range.mpr h1
          · exact List.mem_range.mpr h1
          · rw [h3] at hj
            rcases hj with h | h | h <;> exact absurd h (by simp)
          · rw [h3] at hj
            rcases hj with h | h | h <;> exact absurd h (by simp)
        waitingQueued := by
          intro j hj hw
          obtain ⟨hT, h1, _, _⟩ := hwne j hw
          exact hsplit j hj hT
        queuedWaiting := by
          intro j hj hnp
          rcases hstat j with ⟨_, hz, _, _⟩ | ⟨_, _, hT, _, _⟩ |
            ⟨_, _, _, h3, _⟩ | ⟨h1, _, _⟩
          · omega
          · exact absurd hj (hTD j hT)
          · exact h3
          · exact absurd (List.mem_range.mp (hDsub j hj)) h1
        queuedRep := by
          intro j hj
          exact noReady_reported
            (hnoreadyInit j (fun hT => hTD j hT hj))
        waitingRep := by
          intro j hj
          rcases hj with hw | hd
          · obtain ⟨hT, _, _, _⟩ := hwne j hw
            exact noReady_reported (hnoreadyInit j hT)
          · rcases hstat j with ⟨_, _, h3, _⟩ | ⟨_, _, _, h3, _⟩ |
              ⟨_, _, _, h3, _⟩ | ⟨h1, _, _⟩
            · rw [h3] at hd; exact absurd hd (by simp)
            · rw [h3] at hd; exact absurd hd (by simp)
            · rw [h3] at hd; exact absurd hd (by simp)
            · exact noReady_reported (hnoreadyInit j (hnotmem j h1))
        cntLe := by
          intro j
          rcases hstat j with ⟨_, hz, _, h4⟩ | ⟨_, hz, _, _, h4⟩ |
            ⟨_, hz, _, _, h4⟩ | ⟨_, _, h4⟩ <;> rw [h4] <;> omega
        waitingCnt := by
          intro j hw
          obtain ⟨_, _, _, h4⟩ := hwne j hw
          omega
        activeCnt := by
          intro j hj
          rcases hstat j with ⟨_, hz, _, _⟩ | ⟨_, _, _, _, h4⟩ |
            ⟨_, _, _, h3, _⟩ | ⟨_, h3, _⟩
          · exact Or.inr hz
          · rw [h4]; exact Or.inl (by omega)
          · rw [h3] at hj
            rcases hj with h | h <;> exact absurd h (by simp)
          · rw [h3] at hj
            rcases hj with h | h <;> exact absurd h (by simp)
        zeroNp := by
          intro j hz hj
          rcases hstat j with ⟨_, _, h3, _⟩ | ⟨_, hz2, _, _, _⟩ |
            ⟨_, hz2, _, _, _⟩ | ⟨_, h3, _⟩
          · rw [h3] at hj; exact absurd hj (by simp)
          · exact hz2 hz
          · exact hz2 hz
          · rw [h3] at hj; exact absurd hj (by simp)
        readyCnt := by
          intro j hnp
          rw [hcr j]
          rcases hstat j with ⟨_, hz, _, _⟩ | ⟨_, _, hT, h3, h4⟩ |
            ⟨_, _, hT, h3, h4⟩ | ⟨h1, h3, h4⟩
          · omega
          · rw [if_pos hT, h3, h4]
            simp
          · rw [if_neg hT, h3, h4]
            simp
          · rw [if_neg (hnotmem j h1), h3, h4]
            simp
        readyLe := by
          intro j hnp
          rw [hcr j, hcnp]
          by_cases hT : j ∈ (List.range n).take c
          · rw [if_pos hT]
          · rw [if_neg hT]; omega
        queuedReadyLt := by
          intro j hj hnp
          rw [hcr j, hcnp, if_neg (fun hT => hTD j hT hj)]
          omega
        lastSnap := by
          refine ⟨((List.range n).map (invokeActs np)).flatten, List.range n,
            ((List.range n).take c).map Act.ready, rfl, ?_, ?_⟩
          · intro x hx
            obtain ⟨y, _, he⟩ := List.mem_map.mp hx
            exact absurd he (by simp)
          · intro x hx
            exact Or.inl hx
        noDouble := by
          apply nd_of_countReady_le_one
          intro j
          rw [hcr j]
          by_cases hT : j ∈ (List.range n).take c
          · rw [if_pos hT]
          · rw [if_neg hT]; omega
        barrier := by
          apply barrier_of_countNewPhase_le_one
          rw [hcnp]
        phaseGate := by
          intro j p t1 t2 heq hp
          exfalso
          have hmem : Act.beginWork j p ∈
              (((List.range n).map (invokeActs np)).flatten ++
                (Act.newPhase (List.range n) ::
                  ((List.range n).take c).map Act.ready)) := by
            rw [heq]
            exact List.mem_append.mpr
              (Or.inr (List.mem_cons_self _ _))
          rcases List.mem_append.mp hmem with h1 | h1
          · rcases hmemI _ h1 with ⟨i, he⟩ | ⟨i, _, he⟩
            · exact absurd he (by simp)
            · have : p = 0 := by injection he with he1 he2
              omega
          · rcases List.mem_cons.mp h1 with h2 | h2
            · exact absurd h2 (by simp)
            · obtain ⟨y, _, he⟩ := List.mem_map.mp h2
              exact absurd he (by simp)
        readyGate := by
          intro j p t1 t2 heq hnp
          exfalso
          have hmem : Act.beginWork j p ∈
              (((List.range n).map (invokeActs np)).flatten ++
                (Act.newPhase (List.range n) ::
                  ((List.range n).take c).map Act.ready)) := by
            rw [heq]
            exact List.mem_append.mpr
              (Or.inr (List.mem_cons_self _ _))
          rcases List.mem_append.mp hmem with h1 | h1
          · rcases hmemI _ h1 with ⟨i, he⟩ | ⟨i, hz, he⟩
            · exact absurd he (by simp)
            · have hij : j = i := by injection he with he1 he2
              rw [hij] at hnp
              omega
          · rcases List.mem_cons.mp h1 with h2 | h2
            · exact absurd h2 (by simp)
            · obtain ⟨y, _, he⟩ := List.mem_map.mp h2
              exact absurd he (by simp)
        settleCnt := by
          intro j hjn
          rw [countSettle_append, hIsettle j, Nat.zero_add]
          rw [show countSettle j (Act.newPhase (List.range n) ::
            ((List.range n).take c).map Act.ready) =
            (Act.newPhase (List.range n) ::
              ((List.range n).take c).map Act.ready).countP (isSettleOf j)
            from rfl]
          rw [hBzero (isSettleOf j) (fun i => rfl) rfl]
          rcases hstat j with ⟨_, _, h3, _⟩ | ⟨_, _, _, h3, _⟩ |
            ⟨_, _, _, h3, _⟩ | ⟨h1, _, _⟩
          · rw [h3]; simp
          · rw [h3]; simp
          · rw [h3]; simp
          · omega
        settleTag := by
          intro j hjn hj
          exfalso
          rcases hstat j with ⟨_, _, h3, _⟩ | ⟨_, _, _, h3, _⟩ |
            ⟨_, _, _, h3, _⟩ | ⟨h1, _, _⟩
          · rw [h3] at hj
            rcases hj with h | h <;> exact absurd h (by simp)
          · rw [h3] at hj
            rcases hj with h | h <;> exact absurd h (by simp)
          · rw [h3] at hj
            rcases hj with h | h <;> exact absurd h (by simp)
          · exact h1 hjn
        jobDoneCnt := by
          intro j hjn
          rw [countJobDone_append, hIjd j, Nat.zero_add]
          rw [show countJobDone j (Act.newPhase (List.range n) ::
            ((List.range n).take c).map Act.ready) =
            (Act.newPhase (List.range n) ::
              ((List.range n).take c).map Act.ready).countP (isJobDoneOf j)
            from rfl]
          rw [hBzero (isJobDoneOf j) (fun i => rfl) rfl]
          rcases hstat j with ⟨_, _, h3, _⟩ | ⟨_, _, _, h3, _⟩ |
            ⟨_, _, _, h3, _⟩ | ⟨h1, _, _⟩
          · rw [h3]; simp
          · rw [h3]; simp
          · rw [h3]; simp
          · omega }
  · intro hq
    have hlen : c < (List.range n).length := by
      by_contra hcon
      push_neg at hcon
      exact hq (List.drop_eq_nil_of_le hcon)
    have hTne : (List.range n).take c ≠ [] := by
      have h1 : ((List.range n).take c).length = min c (List.range n).length :=
        List.length_take c (List.range n)
      intro he
      rw [he] at h1
      simp only [List.length_nil] at h1
      omega
    obtain ⟨x, hx⟩ := List.exists_mem_of_ne_nil _ hTne
    rcases hstat x with ⟨_, _, h3, _⟩ | ⟨_, _, _, h3, _⟩ |
      ⟨_, _, hT, _, _⟩ | ⟨h1, _, _⟩
    · exact ⟨x, Or.inr (Or.inl h3)⟩
    · exact ⟨x, Or.inl h3⟩
    · exact absurd hx hT
    · exact absurd (hTn x hx) h1

/-- Every reachable configuration satisfies the invariant. -/
theorem reach_inv {n c : Nat} {np : Nat → Nat} {oc : Nat → Outcome}
    {σ : GState} {t : List Act}
    (hr : Reach n c np oc σ t) (hc : 1 ≤ c) : Inv n c np oc σ t := by
  induction hr with
  | init => exact inv_init hc
  | step hR hS ih =>
      cases hS with
      | resume j h => exact inv_resume ih h
      | boundary j h h0 hn => exact inv_boundary ih hc h h0 hn
      | boundaryFirst j h h0 hn =>
          rw [List.append_nil]
          exact inv_boundaryFirst ih h h0 hn
      | settle j h hn => exact inv_settle ih h hn
      | finalize j h => exact inv_jobDone ih hc h

/-- No deadlock: while any job is still active, some scheduler step is
enabled. -/
theorem progress {n c : Nat} {np : Nat → Nat} {oc : Nat → Outcome}
    {σ : GState} {t : List Act}
    (hI : Inv n c np oc σ t) (hne : σ.coord.jobs ≠ []) :
    ∃ a σ₂, Step c np oc σ a σ₂ := by
  obtain ⟨hm, hpNE, hqIn⟩ := hI
  by_cases hall : ∀ j ∈ σ.coord.jobs, σ.jstat j = JStat.waiting
  · exfalso
    have hpne := hpNE hne
    obtain ⟨x, hx⟩ := List.exists_mem_of_ne_nil _ hpne
    have hxw : σ.jstat x = JStat.waiting := hall x (hm.subPJ x hx)
    have hxq : x ∈ σ.coord.queuedJobs := hm.waitingQueued x hx hxw
    obtain ⟨y, hy⟩ := hqIn (List.ne_nil_of_mem hxq)
    have hyP := hm.inflightPending y hy
    have hyw := hall y (hm.subPJ y hyP)
    rcases hy with h | h | h <;> rw [hyw] at h <;> exact absurd h (by simp)
  · push_neg at hall
    obtain ⟨j, hj, hjne⟩ := hall
    cases hjs : σ.jstat j with
    | waiting => exact absurd hjs hjne
    | released => exact ⟨_, _, Step.resume σ j hjs⟩
    | working =>
        by_cases hcn : σ.cnt j < np j
        · by_cases h0 : 0 < σ.cnt j
          · exact ⟨_, _, Step.boundary σ j hjs h0 hcn⟩
          · exact ⟨_, _, Step.boundaryFirst σ j hjs (by omega) hcn⟩
        · have := hm.cntLe j
          exact ⟨_, _, Step.settle σ j hjs (by omega)⟩
    | finishing => exact ⟨_, _, Step.finalize σ j hjs⟩
    | done => exact absurd hjs ((hm.memIff j).mp hj)

/-! ## Outcome independence -/

/-- Replace every settlement outcome in a trace by the outcome the
assignment `oc2` gives that job; all other actions are untouched. -/
def retagAct (oc2 : Nat → Outcome) : Act → Act
  | Act.settle j _ => Act.settle j (oc2 j)
  | a => a

/-- Retag a whole trace. -/
def retagTrace (oc2 : Nat → Outcome) (t : List Act) : List Act :=
  t.map (retagAct oc2)

theorem retag_eq_self {oc2 : Nat → Outcome} {t : List Act}
    (h : ∀ a ∈ t, ∀ j o, a ≠ Act.settle j o) : retagTrace oc2 t = t := by
  induction t with
  | nil => rfl
  | cons a l ih =>
      have h1 : retagAct oc2 a = a := by
        cases a with
        | settle j o => exact absurd rfl (h _ (List.mem_cons_self _ _) j o)
        | invoke j => rfl
        | newPhase s => rfl
        | ready j => rfl
        | beginWork j p => rfl
        | stepDone j k => rfl
        | jobDone j => rfl
      have h2 := ih (fun b hb => h b (List.mem_cons_of_mem _ hb))
      show retagAct oc2 a :: retagTrace oc2 l = a :: l
      rw [h1, h2]

theorem dispatch_no_settle (c : Nat) (s : CoordState) :
    ∀ a ∈ (dispatch c s).2, ∀ j o, a ≠ Act.settle j o := by
  intro a ha j o
  unfold dispatch at ha
  by_cases hp : s.phasePendingJobs.isEmpty
  · rw [if_pos hp] at ha
    rcases List.mem_cons.mp ha with h1 | h1
    · rw [h1]; simp
    · obtain ⟨y, _, he⟩ := List.mem_map.mp h1
      rw [← he]; simp
  · rw [if_neg hp] at ha
    unfold startQueuedJob at ha
    cases hq : s.queuedJobs with
    | nil => rw [hq] at ha; exact absurd ha (List.not_mem_nil a)
    | cons h0 rest =>
        rw [hq] at ha
        rw [List.mem_singleton.mp ha]
        simp

theorem initTrace_no_settle (n c : Nat) (np : Nat → Nat) :
    ∀ a ∈ initTrace n c np, ∀ j o, a ≠ Act.settle j o := by
  intro a ha j o
  rcases List.mem_append.mp ha with h1 | h1
  · obtain ⟨l, hl, hal⟩ := List.mem_flatten.mp h1
    obtain ⟨i, _, hli⟩ := List.mem_map.mp hl
    rw [← hli] at hal
    unfold invokeActs at hal
    rcases List.mem_cons.mp hal with h2 | h2
    · rw [h2]; simp
    · by_cases hz : np i = 0
      · rw [if_pos hz] at h2
        rw [List.mem_singleton.mp h2]
        simp
      · rw [if_neg hz] at h2
        exact absurd h2 (List.not_mem_nil a)
  · rcases List.mem_cons.mp h1 with h2 | h2
    · rw [h2]; simp
    · obtain ⟨y, _, he⟩ := List.mem_map.mp h2
      rw [← he]; simp

/-- Executions are oblivious to settlement outcomes: any reachable
configuration is reachable under any other outcome assignment, with the
same coordinator state, counters and statuses, and the same trace up to
retagging the settlement outcomes. -/
theorem reach_retag {n c : Nat} {np : Nat → Nat} {oc : Nat → Outcome}
    {σ : GState} {t : List Act}
    (h : Reach n c np oc σ t) (oc2 : Nat → Outcome) :
    Reach n c np oc2 σ (retagTrace oc2 t) := by
  induction h with
  | init =>
      rw [retag_eq_self (initTrace_no_settle n c np)]
      exact Reach.init
  | @step σ1 t1 a σ2 hR hS ih =>
      rw [show retagTrace oc2 _ = _ from List.map_append _ _ _]
      cases hS with
      | resume j h =>
          exact Reach.step ih (Step.resume _ j h)
      | boundary j h h0 hn =>
          have he : retagTrace oc2
              (Act.stepDone j (σ1.cnt j) :: (onStepDone c σ1.coord j).2) =
              Act.stepDone j (σ1.cnt j) :: (onStepDone c σ1.coord j).2 := by
            apply retag_eq_self
            intro b hb i o
            rcases List.mem_cons.mp hb with h1 | h1
            · rw [h1]; simp
            · exact dispatch_no_settle c _ b h1 i o
          rw [show (Act.stepDone j (σ1.cnt j) ::
              (onStepDone c σ1.coord j).2).map (retagAct oc2) =
              retagTrace oc2 (Act.stepDone j (σ1.cnt j) ::
                (onStepDone c σ1.coord j).2) from rfl, he]
          exact Reach.step ih (Step.boundary _ j h h0 hn)
      | boundaryFirst j h h0 hn =>
          exact Reach.step ih (Step.boundaryFirst _ j h h0 hn)
      | settle j h hn =>
          rw [show ([Act.settle j (oc j)]).map (retagAct oc2) =
              [Act.settle j (oc2 j)] from rfl]
          exact Reach.step ih (Step.settle _ j h hn)
      | finalize j h =>
          have he : retagTrace oc2
              (Act.jobDone j :: (onJobDone c σ1.coord j).2) =
              Act.jobDone j :: (onJobDone c σ1.coord j).2 := by
            apply retag_eq_self
            intro b hb i o
            rcases List.mem_cons.mp hb with h1 | h1
            · rw [h1]; simp
            · exact dispatch_no_settle c _ b h1 i o
          rw [show (Act.jobDone j ::
              (onJobDone c σ1.coord j).2).map (retagAct oc2) =
              retagTrace oc2 (Act.jobDone j ::
                (onJobDone c σ1.coord j).2) from rfl, he]
          exact Reach.step ih (Step.finalize _ j h)

/-! ## Further helper lemmas -/

theorem jobDone_mem_iff_countJobDone {j : Nat} {t : List Act} :
    Act.jobDone j ∈ t ↔ 0 < countJobDone j t := by
  constructor
  · intro h
    have : isJobDoneOf j (Act.jobDone j) = true := by simp [isJobDoneOf]
    exact List.countP_pos_iff.mpr ⟨_, h, this⟩
  · intro h
    obtain ⟨a, ha, hp⟩ := List.countP_pos_iff.mp h
    cases a <;> simp [isJobDoneOf] at hp
    subst hp; exact ha

theorem emittedReadies_invokeActs (np : Nat → Nat) (j : Nat) :
    emittedReadies (invokeActs np j) = [] := by
  unfold invokeActs
  by_cases hz : np j = 0
  · rw [if_pos hz]; rfl
  · rw [if_neg hz]; rfl

theorem emittedReadies_flatten_invokes (np : Nat → Nat) (l : List Nat) :
    emittedReadies ((l.map (invokeActs np)).flatten) = [] := by
  induction l with
  | nil => rfl
  | cons a l ih =>
      rw [List.map_cons, List.flatten_cons, emittedReadies_append,
        emittedReadies_invokeActs, ih]
      rfl

theorem dispatch_jobs (c : Nat) (s : CoordState) :
    (dispatch c s).1.jobs = s.jobs := by
  unfold dispatch
  by_cases hp : s.phasePendingJobs.isEmpty
  · rw [if_pos hp]; rfl
  · rw [if_neg hp]
    cases hq : s.queuedJobs with
    | nil => unfold startQueuedJob; rw [hq]
    | cons h0 rest => unfold startQueuedJob; rw [hq]

theorem constructAllStore_notmem {st : Nat → List Val} {refs : List Nat}
    {k x : Nat} (hx : x ∉ refs) : constructAllStore st refs k x = st x := by
  induction refs generalizing st k with
  | nil => rfl
  | cons r rest ih =>
      have hxr : x ≠ r := fun he => hx (he ▸ List.mem_cons_self _ _)
      have hxrest : x ∉ rest := fun hm => hx (List.mem_cons_of_mem _ hm)
      rw [show constructAllStore st (r :: rest) k =
        constructAllStore (unshiftHandle st r k) rest (k + 1) from rfl]
      rw [ih hxrest]
      unfold unshiftHandle
      rw [if_neg hxr]

theorem constructAllStore_get {st : Nat → List Val} {refs : List Nat}
    {k : Nat} (hnd : refs.Nodup) (i : Nat) (h : i < refs.length) :
    constructAllStore st refs k (refs.get ⟨i, h⟩) =
      Val.handle (k + i) :: st (refs.get ⟨i, h⟩) ∧
    (invocationArgs st refs k).get? i =
      some (Val.handle (k + i) :: st (refs.get ⟨i, h⟩)) := by
  induction refs generalizing st k i with
  | nil => exact absurd h (by simp)
  | cons r rest ih =>
      have hr_rest : r ∉ rest := (List.nodup_cons.mp hnd).1
      have hnd2 : rest.Nodup := (List.nodup_cons.mp hnd).2
      cases i with
      | zero =>
          constructor
          · rw [show (r :: rest).get ⟨0, h⟩ = r from rfl]
            rw [show constructAllStore st (r :: rest) k =
              constructAllStore (unshiftHandle st r k) rest (k + 1) from rfl]
            rw [constructAllStore_notmem hr_rest]
            unfold unshiftHandle
            rw [if_pos rfl, Nat.add_zero]
          · rw [show invocationArgs st (r :: rest) k =
              (Val.handle k :: st r) ::
                invocationArgs (unshiftHandle st r k) rest (k + 1) from rfl]
            rw [show (r :: rest).get ⟨0, h⟩ = r from rfl]
            rw [Nat.add_zero]
            rfl
      | succ i2 =>
          have h2 : i2 < rest.length := by
            have := h; simp at this; omega
          have hget : (r :: rest).get ⟨i2 + 1, h⟩ = rest.get ⟨i2, h2⟩ := rfl
          have hgr : rest.get ⟨i2, h2⟩ ≠ r := by
            intro he
            exact hr_rest (he ▸ List.get_mem rest i2 h2)
          obtain ⟨ih1, ih2⟩ := @ih (unshiftHandle st r k) (k + 1)
            hnd2 i2 h2
          constructor
          · rw [hget]
            rw [show constructAllStore st (r :: rest) k =
              constructAllStore (unshiftHandle st r k) rest (k + 1) from rfl]
            rw [ih1]
            unfold unshiftHandle
            rw [if_neg hgr]
            have : k + 1 + i2 = k + (i2 + 1) := by omega
            rw [this]
          · rw [hget]
            rw [show invocationArgs st (r :: rest) k =
              (Val.handle k :: st r) ::
                invocationArgs (unshiftHandle st r k) rest (k + 1) from rfl]
            rw [show ((Val.handle k :: st r) ::
              invocationArgs (unshiftHandle st r k) rest (k + 1)).get? (i2 + 1) =
              (invocationArgs (unshiftHandle st r k) rest (k + 1)).get? i2
              from rfl]
            rw [ih2]
            unfold unshiftHandle
            rw [if_neg hgr]
            have : k + 1 + i2 = k + (i2 + 1) := by omega
            rw [this]

/-! ## A concrete run used to instantiate the theorems

One job (`n = 1`), concurrency `1`, two `phase()` calls, fulfilled
outcome: the scheduler resumes the job, crosses the boundary (which starts
phase 1), resumes again, settles and finalizes. -/

def npW : Nat → Nat := fun _ => 2

def ocW : Nat → Outcome := fun _ => Outcome.fulfilled 7

def sW0 : GState := initState 1 1 npW

def tW0 : List Act := initTrace 1 1 npW

def sW1 : GState := ⟨sW0.coord, sW0.cnt, setStat sW0.jstat 0 JStat.working⟩

def tW1 : List Act := tW0 ++ [Act.beginWork 0 (sW0.cnt 0 - 1)]

def sW2 : GState :=
  ⟨(onStepDone 1 sW1.coord 0).1, setCnt sW1.cnt 0 (sW1.cnt 0 + 1),
    releaseAll (setStat sW1.jstat 0 JStat.waiting)
      (emittedReadies (onStepDone 1 sW1.coord 0).2)⟩

def tW2 : List Act :=
  tW1 ++ (Act.stepDone 0 (sW1.cnt 0) :: (onStepDone 1 sW1.coord 0).2)

def sW3 : GState := ⟨sW2.coord, sW2.cnt, setStat sW2.jstat 0 JStat.working⟩

def tW3 : List Act := tW2 ++ [Act.beginWork 0 (sW2.cnt 0 - 1)]

def sW4 : GState := ⟨sW3.coord, sW3.cnt, setStat sW3.jstat 0 JStat.finishing⟩

def tW4 : List Act := tW3 ++ [Act.settle 0 (ocW 0)]

def sW5 : GState :=
  ⟨(onJobDone 1 sW4.coord 0).1, sW4.cnt,
    releaseAll (setStat sW4.jstat 0 JStat.done)
      (emittedReadies (onJobDone 1 sW4.coord 0).2)⟩

def tW5 : List Act :=
  tW4 ++ (Act.jobDone 0 :: (onJobDone 1 sW4.coord 0).2)

theorem reachW5 : Reach 1 1 npW ocW sW5 tW5 :=
  Reach.step (Reach.step (Reach.step (Reach.step (Reach.step Reach.init
    (Step.resume sW0 0 (by decide)))
    (Step.boundary sW1 0 (by decide) (by decide) (by decide)))
    (Step.resume sW2 0 (by decide)))
    (Step.settle sW3 0 (by decide) (by decide)))
    (Step.finalize sW4 0 (by decide))

theorem tW5_eval : tW5 = [Act.invoke 0, Act.newPhase [0], Act.ready 0,
    Act.beginWork 0 0, Act.stepDone 0 1, Act.newPhase [0], Act.ready 0,
    Act.beginWork 0 1, Act.settle 0 (Outcome.fulfilled 7), Act.jobDone 0,
    Act.newPhase []] := by decide

/-! ## The claims -/

/-- Claim C1 (barrier correctness): in every reachable trace, between two
consecutive phase starts every job of the earlier snapshot has reported
`'stepDone'` or `'jobDone'` (`BarrierProp` — a `'ready'` crossing into the
next phase is emitted only by `startNewPhase`, which runs only once
`phasePendingJobs` has emptied), and no job begins phase `k + 1` work
before `startNewPhase` has opened phase `k + 1` (`PhaseGate`). -/
theorem barrier_correctness {n c : Nat} {np : Nat → Nat} {oc : Nat → Outcome}
    {σ : GState} {t : List Act}
    (hr : Reach n c np oc σ t) (hc : 1 ≤ c) :
    BarrierProp t ∧ PhaseGate t := by
  have h := reach_inv hr hc
  exact ⟨h.1.barrier, h.1.phaseGate⟩

theorem barrier_correctness_witness :
    ((∃ k, Act.stepDone 0 k ∈ [Act.ready 0, Act.beginWork 0 0,
        Act.stepDone 0 1]) ∨
      Act.jobDone 0 ∈ [Act.ready 0, Act.beginWork 0 0, Act.stepDone 0 1]) ∧
    1 + 1 ≤ countNewPhase [Act.invoke 0, Act.newPhase [0], Act.ready 0,
      Act.beginWork 0 0, Act.stepDone 0 1, Act.newPhase [0], Act.ready 0] := by
  have h := barrier_correctness reachW5 (by decide)
  refine ⟨?_, ?_⟩
  · exact h.1 [Act.invoke 0] [0]
      [Act.ready 0, Act.beginWork 0 0, Act.stepDone 0 1] [0]
      [Act.ready 0, Act.beginWork 0 1, Act.settle 0 (Outcome.fulfilled 7),
        Act.jobDone 0, Act.newPhase []]
      (by decide) (by intro x; simp) 0 (by decide)
  · exact h.2 0 1
      [Act.invoke 0, Act.newPhase [0], Act.ready 0, Act.beginWork 0 0,
        Act.stepDone 0 1, Act.newPhase [0], Act.ready 0]
      [Act.settle 0 (Outcome.fulfilled 7), Act.jobDone 0, Act.newPhase []]
      (by decide) (by decide)

/-- Claim C3 (cap respected at phase start): `startNewPhase` signals
`'ready'` to exactly the first `min(concurrency, |jobs|)` active jobs in
snapshot insertion order, queues the remainder, and sets
`phasePendingJobs` to the full active set. -/
theorem startNewPhase_cap (c : Nat) (s : CoordState) :
    emittedReadies (startNewPhase c s).2 = s.jobs.take c ∧
    (emittedReadies (startNewPhase c s).2).length = min c s.jobs.length ∧
    (startNewPhase c s).1.queuedJobs = s.jobs.drop c ∧
    (startNewPhase c s).1.phasePendingJobs = s.jobs ∧
    (startNewPhase c s).1.jobs = s.jobs := by
  have h1 : emittedReadies (startNewPhase c s).2 = s.jobs.take c := by
    rw [show (startNewPhase c s).2 =
      Act.newPhase s.jobs :: (s.jobs.take c).map Act.ready from rfl,
      emittedReadies_cons_newPhase, emittedReadies_map_ready]
  refine ⟨h1, ?_, rfl, rfl, rfl⟩
  rw [h1, List.length_take]

/-- Is this a `'stepDone'` emission of the phase-boundary operation? -/
def isEmitStepDone : PhaseAct → Bool
  | PhaseAct.emitStepDone _ _ => true
  | _ => false

/-- Claim C5 (phase-boundary operation contract): `phase()` arms the
`'ready'` wait first, emits one `'stepDone'` (carrying the identity and
the pre-increment counter) iff the counter is positive — so it is skipped
exactly on the first call — increments the counter by exactly one, and
suspends last; the counter strictly increases. -/
theorem phase_contract (ps : PhaseSyncer) :
    (ps.phase.1).phaseCntr = ps.phaseCntr + 1 ∧
    (ps.phase.1).id = ps.id ∧
    (ps.phase.2).head? = some PhaseAct.arm ∧
    ((PhaseAct.emitStepDone ps.id ps.phaseCntr ∈ ps.phase.2) ↔
      0 < ps.phaseCntr) ∧
    (∀ i k, PhaseAct.emitStepDone i k ∈ ps.phase.2 →
      i = ps.id ∧ k = ps.phaseCntr) ∧
    ((ps.phase.2).countP isEmitStepDone =
      if 0 < ps.phaseCntr then 1 else 0) ∧
    (ps.phase.2).getLast? = some PhaseAct.suspend ∧
    ps.phaseCntr < (ps.phase.1).phaseCntr := by
  by_cases hpos : 0 < ps.phaseCntr
  · have h2 : ps.phase.2 = [PhaseAct.arm,
        PhaseAct.emitStepDone ps.id ps.phaseCntr, PhaseAct.suspend] := by
      unfold PhaseSyncer.phase
      rw [if_pos hpos]
      rfl
    refine ⟨rfl, rfl, by rw [h2]; rfl, ?_, ?_, ?_, by rw [h2]; rfl,
      Nat.lt_succ_self _⟩
    · rw [h2]
      simp [hpos]
    · intro i k hm
      rw [h2] at hm
      simp at hm
      exact hm
    · rw [h2, if_pos hpos]
      rfl
  · have h2 : ps.phase.2 = [PhaseAct.arm, PhaseAct.suspend] := by
      unfold PhaseSyncer.phase
      rw [if_neg hpos]
      rfl
    refine ⟨rfl, rfl, by rw [h2]; rfl, ?_, ?_, ?_, by rw [h2]; rfl,
      Nat.lt_succ_self _⟩
    · rw [h2]
      simp [hpos]
    · intro i k hm
      rw [h2] at hm
      simp at hm
    · rw [h2, if_neg hpos]
      rfl

theorem phase_contract_witness :
    ((PhaseSyncer.mk 3 1).phase.1).phaseCntr = 2 ∧
    ((PhaseSyncer.mk 3 1).phase.2).head? = some PhaseAct.arm ∧
    PhaseAct.emitStepDone 3 1 ∈ (PhaseSyncer.mk 3 1).phase.2 ∧
    (4 = 3 ∧ (2 : Nat) = 1 →
      PhaseAct.emitStepDone 4 2 ∉ (PhaseSyncer.mk 3 1).phase.2) := by
  have h := phase_contract (PhaseSyncer.mk 3 1)
  exact ⟨h.1, h.2.2.1, h.2.2.2.1.mpr (by decide),
    fun hco => absurd hco.1 (by decide)⟩

/-- Claim C9 (no double release within a phase): in every reachable trace,
between two consecutive `'ready'` signals to the same job there is an
intervening `'stepDone'` or `'jobDone'` notification from that job. -/
theorem no_double_release {n c : Nat} {np : Nat → Nat} {oc : Nat → Outcome}
    {σ : GState} {t : List Act}
    (hr : Reach n c np oc σ t) (hc : 1 ≤ c) :
    NoDoubleRelease t :=
  (reach_inv hr hc).1.noDouble

theorem no_double_release_witness :
    (∃ k, Act.stepDone 0 k ∈ [Act.beginWork 0 0, Act.stepDone 0 1,
        Act.newPhase [0]]) ∨
      Act.jobDone 0 ∈ [Act.beginWork 0 0, Act.stepDone 0 1,
        Act.newPhase [0]] := by
  have h := no_double_release reachW5 (by decide)
  exact h 0 [Act.invoke 0, Act.newPhase [0]]
    [Act.beginWork 0 0, Act.stepDone 0 1, Act.newPhase [0]]
    [Act.beginWork 0 1, Act.settle 0 (Outcome.fulfilled 7), Act.jobDone 0,
      Act.newPhase []]
    (by decide) (by decide)

/-- Claim C10 (argument array mutated in place): each `PhaseSyncer`
constructor prepends its handle to the caller-owned argument array in the
heap (`args.unshift(this)`), so after construction the array behind every
descriptor's reference starts with that job's handle, and the job function
is invoked on exactly that mutated array. -/
theorem args_unshift_in_place {st : Nat → List Val} {refs : List Nat}
    (hnd : refs.Nodup) (i : Nat) (h : i < refs.length) :
    constructAllStore st refs 0 (refs.get ⟨i, h⟩) =
      Val.handle i :: st (refs.get ⟨i, h⟩) ∧
    (invocationArgs st refs 0).get? i =
      some (Val.handle i :: st (refs.get ⟨i, h⟩)) := by
  have h2 := @constructAllStore_get st refs 0 hnd i h
  simpa using h2

theorem args_unshift_in_place_witness :
    constructAllStore (fun _ => [Val.arg 3]) [5, 9] 0 9 =
      [Val.handle 1, Val.arg 3] ∧
    (invocationArgs (fun _ => [Val.arg 3]) [5, 9] 0).get? 1 =
      some [Val.handle 1, Val.arg 3] := by
  have h := @args_unshift_in_place (fun _ => [Val.arg 3]) [5, 9]
    (by decide) 1 (by decide)
  exact h

/-- Claim C2 (order preservation and completeness of the aggregate): the
module's return value has exactly one entry per input job, in input order
— entry `i` is the `p-settle` reflection of job `i`'s own outcome,
whatever order jobs completed in — and it is a function of all the
outcomes: in any run in which it is delivered (all jobs retired from
`jobs`), every job has settled in the trace. -/
theorem aggregate_order_preservation {n : Nat} {oc : Nat → Outcome} :
    (aggregateResult n oc).length = n ∧
    (∀ i, i < n → (aggregateResult n oc).get? i = some (settleWrap (oc i))) ∧
    (∀ c np σ t, Reach n c np oc σ t → 1 ≤ c → σ.coord.jobs = [] →
      ∀ j, j < n → Act.settle j (oc j) ∈ t) := by
  have hch : aggregateResult n oc =
      (List.range n).map (fun i => settleWrap (oc i)) := by
    unfold aggregateResult jobMapPairs buildSyncers
    rw [List.map_map, List.map_map, List.map_map]
    rfl
  refine ⟨?_, ?_, ?_⟩
  · rw [hch, List.length_map, List.length_range]
  · intro i hi
    rw [hch, List.get?_map, List.get?_range hi]
    rfl
  · intro c np σ t hr hc hjobs j hjn
    have h := reach_inv hr hc
    have hdone : σ.jstat j = JStat.done := by
      by_contra hne
      have : j ∈ σ.coord.jobs := (h.1.memIff j).mpr hne
      rw [hjobs] at this
      exact absurd this (List.not_mem_nil j)
    exact h.1.settleTag j hjn (Or.inr hdone)

theorem aggregate_order_preservation_witness :
    (aggregateResult 1 ocW).length = 1 ∧
    (aggregateResult 1 ocW).get? 0 =
      some (settleWrap (Outcome.fulfilled 7)) ∧
    Act.settle 0 (Outcome.fulfilled 7) ∈ tW5 := by
  have h := @aggregate_order_preservation 1 ocW
  exact ⟨h.1, h.2.1 0 (by decide),
    h.2.2 1 npW sW5 tW5 reachW5 (by decide) (by decide) 0 (by decide)⟩

/-- Claim C4 (counterexample): with two jobs and concurrency `1`, job 1's
function is invoked during construction — `Act.invoke 1` is in the module
body's trace although no `Act.ready 1` ever is — and when job 1 makes no
boundary call it even begins its phase-0 work there; so it is false that
a job does not begin executing its job function until the coordinator
releases it. -/
theorem capped_start_counterexample :
    Act.invoke 1 ∈ initTrace 2 1 (fun _ => 2) ∧
    Act.ready 1 ∉ initTrace 2 1 (fun _ => 2) ∧
    Act.beginWork 1 0 ∈ initTrace 2 1 (fun _ => 0) ∧
    Act.ready 1 ∉ initTrace 2 1 (fun _ => 0) := by decide

/-- Claim C4 (amended): at run start every job function is invoked
synchronously during construction — before any release — running to its
first phase-boundary call (or, with no boundary call, straight into its
ungated phase-0 work); the initial `startNewPhase` then emits `'ready'` to
exactly the first `min(concurrency, n)` jobs; and a job that makes at
least one boundary call begins none of its phase work before receiving a
`'ready'` signal. -/
theorem capped_start_amended {n c : Nat} {np : Nat → Nat}
    {oc : Nat → Outcome} {σ : GState} {t : List Act}
    (hr : Reach n c np oc σ t) (hc : 1 ≤ c) :
    ReadyGate np t ∧
    initTrace n c np = ((List.range n).map (invokeActs np)).flatten ++
      (Act.newPhase (List.range n) ::
        ((List.range n).take c).map Act.ready) ∧
    emittedReadies (initTrace n c np) = (List.range n).take c ∧
    (∀ j, j < n → Act.invoke j ∈ initTrace n c np) := by
  refine ⟨(reach_inv hr hc).1.readyGate, rfl, ?_, ?_⟩
  · rw [show initTrace n c np =
      ((List.range n).map (invokeActs np)).flatten ++
        (Act.newPhase (List.range n) ::
          ((List.range n).take c).map Act.ready) from rfl]
    rw [emittedReadies_append, emittedReadies_flatten_invokes,
      emittedReadies_cons_newPhase, emittedReadies_map_ready]
    rfl
  · intro j hjn
    refine List.mem_append.mpr (Or.inl ?_)
    exact List.mem_flatten.mpr ⟨invokeActs np j,
      List.mem_map.mpr ⟨j, List.mem_range.mpr hjn, rfl⟩,
      List.mem_cons_self _ _⟩

theorem capped_start_amended_witness :
    Act.ready 0 ∈ [Act.invoke 0, Act.newPhase [0], Act.ready 0] ∧
    emittedReadies (initTrace 1 1 npW) = [0] ∧
    Act.invoke 0 ∈ initTrace 1 1 npW := by
  have h := capped_start_amended reachW5 (by decide)
  refine ⟨?_, ?_, h.2.2.2 0 (by decide)⟩
  · exact h.1 0 0 [Act.invoke 0, Act.newPhase [0], Act.ready 0]
      [Act.stepDone 0 1, Act.newPhase [0], Act.ready 0, Act.beginWork 0 1,
        Act.settle 0 (Outcome.fulfilled 7), Act.jobDone 0, Act.newPhase []]
      (by decide) (by decide)
  · rw [h.2.2.1]
    decide

/-- Claim C6 (exactly-once termination notification): in every reachable
configuration each job has emitted `'jobDone'` exactly once if its
`p-finally` callback has run and never otherwise — in particular never
more than once — whatever its outcome and however many boundaries it
crossed (both are universally quantified, including zero boundaries). -/
theorem jobdone_exactly_once {n c : Nat} {np : Nat → Nat}
    {oc : Nat → Outcome} {σ : GState} {t : List Act}
    (hr : Reach n c np oc σ t) (hc : 1 ≤ c) :
    ∀ j, j < n →
      countJobDone j t = (if σ.jstat j = JStat.done then 1 else 0) ∧
      countJobDone j t ≤ 1 ∧
      (Act.jobDone j ∈ t ↔ σ.jstat j = JStat.done) := by
  intro j hjn
  have h := (reach_inv hr hc).1.jobDoneCnt j hjn
  refine ⟨h, ?_, ?_⟩
  · rw [h]
    by_cases hd : σ.jstat j = JStat.done
    · rw [if_pos hd]
    · rw [if_neg hd]
      omega
  · rw [jobDone_mem_iff_countJobDone, h]
    by_cases hd : σ.jstat j = JStat.done
    · simp [hd]
    · simp [hd]

theorem jobdone_exactly_once_witness :
    countJobDone 0 tW5 = 1 ∧ countJobDone 0 tW5 ≤ 1 ∧
    Act.jobDone 0 ∈ tW5 := by
  have h := jobdone_exactly_once reachW5 (by decide) 0 (by decide)
  refine ⟨?_, h.2.1, h.2.2.mpr (by decide)⟩
  rw [h.1]
  decide

/-- Claim C7 (failure isolation): a job's outcome never influences the
run — any reachable configuration is reachable under any other outcome
assignment with the identical coordinator state, counters and statuses
(so a failing job is removed from the sets exactly like a fulfilled one,
and no other job is cancelled, skipped or blocked); while any job is
active some step is enabled (the coordinator itself never rejects or gets
stuck); and once `jobs` is empty every job has settled with its own
outcome and terminated exactly once, so the aggregate resolves. -/
theorem failure_isolation {n c : Nat} {np : Nat → Nat} {oc : Nat → Outcome}
    {σ : GState} {t : List Act} (hr : Reach n c np oc σ t) :
    (∀ oc2, Reach n c np oc2 σ (retagTrace oc2 t)) ∧
    (1 ≤ c → σ.coord.jobs ≠ [] → ∃ a σ₂, Step c np oc σ a σ₂) ∧
    (1 ≤ c → σ.coord.jobs = [] → ∀ j, j < n →
      σ.jstat j = JStat.done ∧ Act.settle j (oc j) ∈ t ∧
        countJobDone j t = 1) := by
  refine ⟨fun oc2 => reach_retag hr oc2,
    fun hc hne => progress (reach_inv hr hc) hne, ?_⟩
  intro hc hjobs j hjn
  have h := reach_inv hr hc
  have hdone : σ.jstat j = JStat.done := by
    by_contra hne
    have : j ∈ σ.coord.jobs := (h.1.memIff j).mpr hne
    rw [hjobs] at this
    exact absurd this (List.not_mem_nil j)
  refine ⟨hdone, h.1.settleTag j hjn (Or.inr hdone), ?_⟩
  rw [h.1.jobDoneCnt j hjn, if_pos hdone]

theorem failure_isolation_witness :
    Reach 1 1 npW (fun _ => Outcome.rejected 9) sW5
      (retagTrace (fun _ => Outcome.rejected 9) tW5) ∧
    sW5.jstat 0 = JStat.done ∧ Act.settle 0 (ocW 0) ∈ tW5 ∧
    countJobDone 0 tW5 = 1 := by
  have h := failure_isolation reachW5
  have h3 := h.2.2 (by decide) (by decide) 0 (by decide)
  exact ⟨h.1 (fun _ => Outcome.rejected 9), h3⟩

/-- Claim C8 (coordinator set invariants): in every reachable
configuration `phasePendingJobs ⊆ jobs` and `queuedJobs ⊆ jobs`; `jobs`
never grows (it stays within the constructed set, and every step maps it
to a sublist of itself); and each job identity has been removed from
`jobs` exactly when its single `'jobDone'` was processed — never more
than once. -/
theorem coordinator_set_invariants {n c : Nat} {np : Nat → Nat}
    {oc : Nat → Outcome} {σ : GState} {t : List Act}
    (hr : Reach n c np oc σ t) (hc : 1 ≤ c) :
    (∀ x ∈ σ.coord.phasePendingJobs, x ∈ σ.coord.jobs) ∧
    (∀ x ∈ σ.coord.queuedJobs, x ∈ σ.coord.jobs) ∧
    σ.coord.jobs.Sublist (List.range n) ∧
    (∀ a σ₂, Step c np oc σ a σ₂ → σ₂.coord.jobs.Sublist σ.coord.jobs) ∧
    (∀ j, j < n → countJobDone j t ≤ 1 ∧
      (j ∉ σ.coord.jobs ↔ countJobDone j t = 1)) := by
  have h := reach_inv hr hc
  refine ⟨h.1.subPJ, fun x hx => h.1.subPJ x (h.1.subQP x hx),
    h.1.subJR, ?_, ?_⟩
  · intro a σ₂ hS
    cases hS with
    | resume j hj => exact List.Sublist.refl _
    | boundary j hj h0 hn =>
        show ((onStepDone c σ.coord j).1).jobs.Sublist σ.coord.jobs
        have he : (onStepDone c σ.coord j).1.jobs = σ.coord.jobs :=
          dispatch_jobs c _
        rw [he]
    | boundaryFirst j hj h0 hn => exact List.Sublist.refl _
    | settle j hj hn => exact List.Sublist.refl _
    | finalize j hj =>
        show ((onJobDone c σ.coord j).1).jobs.Sublist σ.coord.jobs
        have he : (onJobDone c σ.coord j).1.jobs = σ.coord.jobs.erase j :=
          dispatch_jobs c _
        rw [he]
        exact List.erase_sublist j σ.coord.jobs
  · intro j hjn
    have hcnt := h.1.jobDoneCnt j hjn
    refine ⟨?_, ?_, ?_⟩
    · rw [hcnt]
      by_cases hd : σ.jstat j = JStat.done
      · rw [if_pos hd]
      · rw [if_neg hd]
        omega
    · intro hnm
      have hd : σ.jstat j = JStat.done := by
        by_contra hne
        exact hnm ((h.1.memIff j).mpr hne)
      rw [hcnt, if_pos hd]
    · intro h1 hmem
      have hne := (h.1.memIff j).mp hmem
      rw [hcnt, if_neg hne] at h1
      exact absurd h1 (by omega)

theorem coordinator_set_invariants_witness :
    sW5.coord.jobs.Sublist (List.range 1) ∧
    (0 ∉ sW5.coord.jobs ↔ countJobDone 0 tW5 = 1) ∧
    countJobDone 0 tW5 ≤ 1 := by
  have h := coordinator_set_invariants reachW5 (by decide)
  exact ⟨h.2.2.1, (h.2.2.2.2 0 (by decide)).2, (h.2.2.2.2 0 (by decide)).1⟩

end PSS
